import Mathlib

/-!
Verification of the electrs address-index and subscription server core:
a shallow embedding of `src/status.rs` (script-hash status tracker) and
`src/main.rs` (block indexer) with theorems about the specified behaviour.

Modelling conventions:
* machine integers are `Nat` with explicit `% 2 ^ w` where truncation occurs;
* 32-byte digests (`Txid`, `BlockHash` of the indexer; `ScriptHash`,
  `StatusHash`) are byte lists, except that in the status-tracker model
  `Txid` and `BlockHash` are identifiers (`Nat`), since the tracker never
  inspects their bytes, only compares and renders them;
* Rust `HashMap` / `HashSet` are association lists / duplicate-free lists
  with a fixed (insertion) iteration order, a determinization of the
  arbitrary iteration order of the source;
* fallible operations return `Except` / `Option`; panics of the indexer
  (`unwrap`, `assert_eq!`) become distinguished abort outcomes.
-/

set_option maxRecDepth 100000

/-! ## SHA-256 (FIPS 180-4) over byte lists, words as `Nat` mod `2 ^ 32`.
Used by `ScriptHash::new` (SHA-256 of a script) and by the status-hash
engine (`bitcoin::hashes::sha256`). -/

def w32 : Nat := 4294967296

def rotr32 (n x : Nat) : Nat := (x >>> n + (x % 2 ^ n) <<< (32 - n)) % w32

def xor32 (a b : Nat) : Nat := a ^^^ b

def not32 (x : Nat) : Nat := x ^^^ 4294967295

def sha256K : List Nat :=
  [1116352408, 1899447441, 3049323471, 3921009573, 961987163,
   1508970993, 2453635748, 2870763221, 3624381080, 310598401,
   607225278, 1426881987, 1925078388, 2162078206, 2614888103,
   3248222580, 3835390401, 4022224774, 264347078, 604807628,
   770255983, 1249150122, 1555081692, 1996064986, 2554220882,
   2821834349, 2952996808, 3210313671, 3336571891, 3584528711,
   113926993, 338241895, 666307205, 773529912, 1294757372,
   1396182291, 1695183700, 1986661051, 2177026350, 2456956037,
   2730485921, 2820302411, 3259730800, 3345764771, 3516065817,
   3600352804, 4094571909, 275423344, 430227734, 506948616,
   659060556, 883997877, 958139571, 1322822218, 1537002063,
   1747873779, 1955562222, 2024104815, 2227730452, 2361852424,
   2428436474, 2756734187, 3204031479, 3329325298]

def sha256Init : List Nat :=
  [1779033703, 3144134277, 1013904242, 2773480762,
   1359893119, 2600822924, 528734635, 1541459225]

/-- Pad a byte message per FIPS 180-4: append 0x80, zeros, 8-byte big-endian
bit length. -/
def sha256Pad (msg : List Nat) : List Nat :=
  let l := msg.length
  let zeros := (64 + 56 - (l + 1) % 64) % 64
  let bits := l * 8
  msg ++ [0x80] ++ List.replicate zeros 0 ++
    (List.range 8).map (fun i => bits / 2 ^ (8 * (7 - i)) % 256)

/-- Split a list into chunks of 64 elements (fuel bounds the recursion so the
definition is structural and kernel-reducible). -/
def chunks64Aux : Nat → List Nat → List (List Nat)
  | 0, _ => []
  | _, [] => []
  | fuel + 1, l => l.take 64 :: chunks64Aux fuel (l.drop 64)

def chunks64 (l : List Nat) : List (List Nat) := chunks64Aux (l.length + 1) l

/-- First 16 big-endian 32-bit words of a 64-byte chunk. -/
def chunkWords (c : List Nat) : List Nat :=
  (List.range 16).map (fun i =>
    c.getD (4 * i) 0 * 16777216 + c.getD (4 * i + 1) 0 * 65536 +
    c.getD (4 * i + 2) 0 * 256 + c.getD (4 * i + 3) 0)

/-- Extend 16 words to the 64-word message schedule. -/
def sha256Schedule (ws : List Nat) : List Nat :=
  (List.range 48).foldl
    (fun acc _ =>
      let n := acc.length
      let x15 := acc.getD (n - 15) 0
      let x2 := acc.getD (n - 2) 0
      let s0 := xor32 (xor32 (rotr32 7 x15) (rotr32 18 x15)) (x15 >>> 3)
      let s1 := xor32 (xor32 (rotr32 17 x2) (rotr32 19 x2)) (x2 >>> 10)
      acc ++ [(acc.getD (n - 16) 0 + s0 + acc.getD (n - 7) 0 + s1) % w32])
    ws

/-- One round of the SHA-256 compression function. -/
def sha256Round (st : List Nat) (kw : Nat × Nat) : List Nat :=
  let a := st.getD 0 0
  let b := st.getD 1 0
  let c := st.getD 2 0
  let d := st.getD 3 0
  let e := st.getD 4 0
  let f := st.getD 5 0
  let g := st.getD 6 0
  let h := st.getD 7 0
  let s1 := xor32 (xor32 (rotr32 6 e) (rotr32 11 e)) (rotr32 25 e)
  let ch := xor32 (e &&& f) (not32 e &&& g)
  let t1 := (h + s1 + ch + kw.1 + kw.2) % w32
  let s0 := xor32 (xor32 (rotr32 2 a) (rotr32 13 a)) (rotr32 22 a)
  let mj := xor32 (xor32 (a &&& b) (a &&& c)) (b &&& c)
  let t2 := (s0 + mj) % w32
  [(t1 + t2) % w32, a, b, c, (d + t1) % w32, e, f, g]

/-- Process one 64-byte chunk, updating the eight hash words. -/
def sha256Chunk (hs : List Nat) (c : List Nat) : List Nat :=
  let ws := sha256Schedule (chunkWords c)
  let st := (sha256K.zip ws).foldl sha256Round hs
  (List.range 8).map (fun i => (hs.getD i 0 + st.getD i 0) % w32)

/-- SHA-256 digest of a byte list, as a list of 32 bytes. -/
def sha256Bytes (msg : List Nat) : List Nat :=
  let hs := (chunks64 (sha256Pad msg)).foldl sha256Chunk sha256Init
  hs.flatMap (fun h => [h / 16777216 % 256, h / 65536 % 256, h / 256 % 256, h % 256])

example : sha256Bytes [] =
    [0xe3, 0xb0, 0xc4, 0x42, 0x98, 0xfc, 0x1c, 0x14, 0x9a, 0xfb, 0xf4, 0xc8,
     0x99, 0x6f, 0xb9, 0x24, 0x27, 0xae, 0x41, 0xe4, 0x64, 0x9b, 0x93, 0x4c,
     0xa4, 0x95, 0x99, 0x1b, 0x78, 0x52, 0xb8, 0x55] := by decide

example : sha256Bytes [0x61, 0x62, 0x63] =
    [0xba, 0x78, 0x16, 0xbf, 0x8f, 0x01, 0xcf, 0xea, 0x41, 0x41, 0x40, 0xde,
     0x5d, 0xae, 0x22, 0x23, 0xb0, 0x03, 0x61, 0xa3, 0x96, 0x17, 0x7a, 0x9c,
     0xb4, 0x10, 0xff, 0x61, 0xf2, 0x00, 0x15, 0xad] := by decide

/-! ## Generic association-list and duplicate-free-list helpers.
These determinize Rust's `HashMap` / `HashSet` with insertion order. -/

/-- `HashSet::insert`: append unless present. -/
def insertDedup {α : Type} [DecidableEq α] (l : List α) (x : α) : List α :=
  if x ∈ l then l else l ++ [x]

/-- `HashSet::extend`. -/
def extendDedup {α : Type} [DecidableEq α] (l : List α) (xs : List α) : List α :=
  xs.foldl insertDedup l

/-- `HashMap::contains_key`. -/
def containsKey {κ β : Type} [BEq κ] (m : List (κ × β)) (k : κ) : Bool :=
  m.any (fun p => p.1 == k)

/-- `HashMap::entry(k).or_default()` followed by a field update `f`. -/
def upsert {κ β : Type} [BEq κ] (m : List (κ × β)) (k : κ) (d : β) (f : β → β) :
    List (κ × β) :=
  match m with
  | [] => [(k, f d)]
  | (q, v) :: rest => if k == q then (q, f v) :: rest else (q, v) :: upsert rest k d f

/-- `HashMap::insert` (overwrite, new keys appended). -/
def mapInsert {β : Type} (m : List (Nat × β)) (k : Nat) (v : β) : List (Nat × β) :=
  if containsKey m k then m.map (fun p => if p.1 == k then (k, v) else p)
  else m ++ [(k, v)]

/-- `HashMap::extend`. -/
def extendMap {β : Type} (m upd : List (Nat × β)) : List (Nat × β) :=
  upd.foldl (fun acc p => mapInsert acc p.1 p.2) m

/-- Stable insertion into a list sorted by the boolean relation `le`. -/
def insertLe {α : Type} (le : α → α → Bool) (x : α) : List α → List α
  | [] => [x]
  | y :: ys => if le y x then y :: insertLe le x ys else x :: y :: ys

/-- Insertion sort by the boolean relation `le` (Rust `sort_by_key`). -/
def sortByLe {α : Type} (le : α → α → Bool) : List α → List α
  | [] => []
  | x :: xs => insertLe le x (sortByLe le xs)

/-- `BTreeMap` built from an iterator: sorted insert, overwriting equal keys. -/
def btreeInsert {β : Type} (m : List (Nat × β)) (k : Nat) (v : β) : List (Nat × β) :=
  match m with
  | [] => [(k, v)]
  | (q, w) :: rest =>
    if k < q then (k, v) :: (q, w) :: rest
    else if k = q then (k, v) :: rest
    else (q, w) :: btreeInsert rest k v

/-! ## Data model of `src/status.rs`.
`Txid` and `BlockHash` are `Nat` identifiers; `ScriptHash` and digests are
byte lists; an `OutPoint` is a `(txid, vout)` pair. A `Tx` carries its txid
(computed by the bitcoin library in the source), its inputs' previous
outpoints, and its outputs' script bytes. -/

abbrev OutPoint := Nat × Nat

structure Tx where
  txid : Nat
  input : List OutPoint
  output : List (List Nat)
deriving DecidableEq, Repr

structure Block where
  txdata : List Tx
deriving DecidableEq, Repr

structure Entry where
  outputs : List Nat
  spent : List OutPoint
deriving DecidableEq, Repr

structure TxEntry where
  txid : Nat
  outputs : List Nat
  spent : List OutPoint
deriving DecidableEq, Repr

def TxEntry.new (txid : Nat) (e : Entry) : TxEntry :=
  ⟨txid, e.outputs, e.spent⟩

structure ConfirmedEntry where
  txid : Nat
  height : Nat
deriving DecidableEq, Repr

structure MempoolEntry where
  txid : Nat
  has_unconfirmed_inputs : Bool
  fee : Nat
deriving DecidableEq, Repr

/-- `MempoolEntry::height`: pseudo-height −1 with unconfirmed inputs, else 0. -/
def MempoolEntry.height (e : MempoolEntry) : Int :=
  if e.has_unconfirmed_inputs then -1 else 0

structure Status where
  scripthash : List Nat
  tip : Nat
  statushash : Option (List Nat)
  confirmed : List (Nat × List TxEntry)
  mempool : List TxEntry
deriving DecidableEq, Repr

/-- `Status::new`: zero tip sentinel, no hash, empty collections. -/
def Status.new (scripthash : List Nat) : Status :=
  ⟨scripthash, 0, none, [], []⟩

def make_outpoints (txid : Nat) (outputs : List Nat) : List OutPoint :=
  outputs.map (fun vout => (txid, vout))

/-- Modelled from the spec: `types.rs` is not under `src`; per the glossary a
script hash is the SHA-256 of an output script (`ScriptHash::new`). -/
def ScriptHash.new (script : List Nat) : List Nat := sha256Bytes script

/-- The chain view, an external collaborator (spec §1): height of an
active-chain block hash, or absent, plus the current tip. -/
structure Chain where
  tip : Nat
  get_block_height : Nat → Option Nat

structure MEntry where
  txid : Nat
  tx : Tx
  has_unconfirmed_inputs : Bool
  fee : Nat

/-- The mempool tracker, an external collaborator (spec §1). -/
structure Mempool where
  entries : List MEntry

/-- `Status::filter_outputs` generalized over the script hash: output
positions whose script hashes to it, in output order. -/
def filterOutputsBy (sh : List Nat) (tx : Tx) : List Nat :=
  tx.output.enum.filterMap
    (fun p => if ScriptHash.new p.2 = sh then some p.1 else none)

def Status.filter_outputs (s : Status) (tx : Tx) : List Nat :=
  filterOutputsBy s.scripthash tx

/-- `Status::filter_inputs`: the tx's previous outpoints that lie in the set. -/
def Status.filter_inputs (tx : Tx) (outpoints : List OutPoint) : List OutPoint :=
  tx.input.filter (fun op => decide (op ∈ outpoints))

/-- Modelled from the spec: `mempool.rs` is not under `src`; per §1/§4.5 the
tracker returns the entries whose tx funds the script hash. -/
def Mempool.filter_by_funding (mp : Mempool) (sh : List Nat) : List MEntry :=
  mp.entries.filter (fun e => !(filterOutputsBy sh e.tx).isEmpty)

/-- Modelled from the spec: entries whose tx spends the outpoint. -/
def Mempool.filter_by_spending (mp : Mempool) (op : OutPoint) : List MEntry :=
  mp.entries.filter (fun e => decide (op ∈ e.tx.input))

/-- Modelled from the spec: lookup of a mempool entry by txid. -/
def Mempool.get (mp : Mempool) (txid : Nat) : Option MEntry :=
  mp.entries.find? (fun e => e.txid == txid)

/-! ## Shared transaction/proof cache and the daemon. -/

/-- The shared cache, an external collaborator (spec §1): add-or-ignore of
transactions keyed by txid, and of Merkle proofs keyed by (blockhash, txid).
A proof is modelled by its construction data `(txids, pos)`. -/
structure Cache where
  txs : List (Nat × Tx)
  proofs : List ((Nat × Nat) × (List Nat × Nat))
deriving DecidableEq, Repr

def Cache.add_tx (c : Cache) (txid : Nat) (tx : Tx) : Cache :=
  if containsKey c.txs txid then c else { c with txs := c.txs ++ [(txid, tx)] }

def Cache.add_proof (c : Cache) (bh txid : Nat) (proof : List Nat × Nat) : Cache :=
  if containsKey c.proofs (bh, txid) then c
  else { c with proofs := c.proofs ++ [((bh, txid), proof)] }

/-- Modelled from the spec: `daemon.rs` is not under `src`; `get_block` fetches
a block body by hash, failing with a node I/O error (error codes as `Nat`). -/
structure Daemon where
  fetch : Nat → Except Nat Block

/-- `Daemon::for_blocks`: fetch each hash in order and fold `func` through a
state; the log records every hash requested from the daemon; a fetch error
aborts with the state reached so far. -/
def Daemon.for_blocks {σ : Type} (d : Daemon) (bs : List Nat)
    (f : Nat → Block → σ → σ) (st : σ) (log : List Nat) :
    σ × List Nat × Option Nat :=
  match bs with
  | [] => (st, log, none)
  | bh :: rest =>
    match d.fetch bh with
    | .error e => (st, log ++ [bh], some e)
    | .ok b => d.for_blocks rest f (f bh b st) (log ++ [bh])

/-- `Status::for_new_blocks`: skip hashes already recorded in `confirmed`. -/
def new_blocks (s : Status) (bs : List Nat) : List Nat :=
  bs.filter (fun bh => !(containsKey s.confirmed bh))

def Status.for_new_blocks {σ : Type} (s : Status) (bs : List Nat) (d : Daemon)
    (f : Nat → Block → σ → σ) (st : σ) (log : List Nat) :
    σ × List Nat × Option Nat :=
  d.for_blocks (new_blocks s bs) f st log

/-! ## The index query facade. -/

/-- The index query facade: the chain view plus the raw blockhash lists its
store scans produce for a script hash / outpoint. -/
structure Index where
  chain : Chain
  fundingRows : List Nat → List Nat
  spendingRows : OutPoint → List Nat

/-- Modelled from the spec: `index.rs` is not under `src`; per §4.4
`filter_by_funding` keeps only active-chain blockhashes and returns the
distinct ones. -/
def Index.filter_by_funding (ix : Index) (sh : List Nat) : List Nat :=
  ((ix.fundingRows sh).filter (fun bh => (ix.chain.get_block_height bh).isSome)).dedup

/-- Modelled from the spec: as `filter_by_funding`, for spending rows. -/
def Index.filter_by_spending (ix : Index) (op : OutPoint) : List Nat :=
  ((ix.spendingRows op).filter (fun bh => (ix.chain.get_block_height bh).isSome)).dedup

/-! ## `Status` read paths. -/

/-- `Status::funding_confirmed`: outpoints funded by entries of blocks still
on the active chain, collected into a set. -/
def Status.funding_confirmed (s : Status) (chain : Chain) : List OutPoint :=
  extendDedup []
    ((s.confirmed.filter (fun p => (chain.get_block_height p.1).isSome)).flatMap
      (fun p => p.2.flatMap (fun e => make_outpoints e.txid e.outputs)))

/-- The initial `unspent` set of `Status::get_unspent`: outpoints funded by
active-chain confirmed entries, extended with the mempool-funded ones. -/
def fundedOutpoints (s : Status) (chain : Chain) : List OutPoint :=
  extendDedup (s.funding_confirmed chain)
    (s.mempool.flatMap (fun e => make_outpoints e.txid e.outputs))

/-- The `spent_outpoints` stream of `Status::get_unspent`: spent outpoints of
active-chain confirmed entries chained with the mempool entries. -/
def spentOutpoints (s : Status) (chain : Chain) : List OutPoint :=
  ((s.confirmed.filter (fun p => (chain.get_block_height p.1).isSome)).flatMap
      (fun p => p.2) ++ s.mempool).flatMap (fun e => e.spent)

/-- `Status::get_unspent`: confirmed-and-mempool funded outpoints minus spent
ones; removing an absent outpoint is the source's `assert!` failure, `none`. -/
def Status.get_unspent (s : Status) (chain : Chain) : Option (List OutPoint) :=
  (spentOutpoints s chain).foldl
    (fun acc op => acc.bind (fun u => if op ∈ u then some (u.erase op) else none))
    (some (fundedOutpoints s chain))

/-- `Status::get_confirmed`: entries of active-chain blocks, grouped through a
`BTreeMap` keyed by height, flattened in height order. -/
def Status.get_confirmed (s : Status) (chain : Chain) : List ConfirmedEntry :=
  ((s.confirmed.filterMap
      (fun p => (chain.get_block_height p.1).map (fun h => (h, p.2)))).foldl
    (fun m q => btreeInsert m q.1 q.2) []).flatMap
    (fun q => q.2.map (fun e => ConfirmedEntry.mk e.txid q.1))

/-- Rust `(bool, Txid)` key order used by `Status::get_mempool`. -/
def mkeyLe (a b : MEntry) : Bool :=
  if a.has_unconfirmed_inputs = b.has_unconfirmed_inputs then decide (a.txid ≤ b.txid)
  else b.has_unconfirmed_inputs

/-- `Status::get_mempool`: look tracked txids up in the tracker and sort by
`(has_unconfirmed_inputs, txid)`. -/
def Status.get_mempool (s : Status) (mp : Mempool) : List MempoolEntry :=
  (sortByLe mkeyLe (s.mempool.filterMap (fun e => mp.get e.txid))).map
    (fun e => MempoolEntry.mk e.txid e.has_unconfirmed_inputs e.fee)

/-! ## Status-hash rendering.
`format!("{}:{}:", txid, height)` renders the txid as 64 lowercase hex
digits and the height in decimal (`-1` / `0` for mempool entries). -/

def hexDigitChar (n : Nat) : Char :=
  if n < 10 then Char.ofNat (48 + n) else Char.ofNat (87 + n)

def txidHex (t : Nat) : String :=
  String.mk ((List.range 64).map (fun i => hexDigitChar (t / 16 ^ (63 - i) % 16)))

def strBytes (s : String) : List Nat := s.data.map Char.toNat

def ConfirmedEntry.hashStr (e : ConfirmedEntry) : String :=
  txidHex e.txid ++ ":" ++ toString e.height ++ ":"

/-- `ConfirmedEntry::hash`: feed the rendered entry into the engine (the
engine is the list of bytes fed so far). -/
def ConfirmedEntry.hash (e : ConfirmedEntry) (engine : List Nat) : List Nat :=
  engine ++ strBytes e.hashStr

def MempoolEntry.hashStr (e : MempoolEntry) : String :=
  txidHex e.txid ++ ":" ++ toString e.height ++ ":"

/-- `MempoolEntry::hash`. -/
def MempoolEntry.hash (e : MempoolEntry) (engine : List Nat) : List Nat :=
  engine ++ strBytes e.hashStr

/-- `Status::compute_status_hash`: absent when both rendered lists are empty,
else the SHA-256 of the bytes fed, confirmed entries first. -/
def Status.compute_status_hash (s : Status) (chain : Chain) (mp : Mempool) :
    Option (List Nat) :=
  let confirmed := s.get_confirmed chain
  let mempool := s.get_mempool mp
  if confirmed.isEmpty && mempool.isEmpty then none
  else
    some (sha256Bytes
      (mempool.foldl (fun en e => e.hash en)
        (confirmed.foldl (fun en e => e.hash en) [])))

/-! ## `Status::sync_confirmed` and `Status::sync_mempool`. -/

/-- Mutable state threaded through `sync_confirmed`'s closures: the
per-block result map, the outpoint set, and the shared cache. -/
structure SCState where
  result : List (Nat × List ((Nat × Nat) × Entry))
  outpoints : List OutPoint
  cache : Cache
deriving Repr

/-- `result.entry(bh).or_default().entry(posTxid).or_default()` + update. -/
def upsert2 (r : List (Nat × List ((Nat × Nat) × Entry))) (bh : Nat)
    (k : Nat × Nat) (f : Entry → Entry) : List (Nat × List ((Nat × Nat) × Entry)) :=
  upsert r bh [] (fun m => upsert m k ⟨[], []⟩ f)

/-- One transaction of the funding pass: if some outputs pay the script,
record them, cache tx and proof, extend the outpoint set. -/
def funding_tx_step (sh : List Nat) (bh : Nat) (txids : List Nat)
    (st : SCState) (p : Nat × Tx) : SCState :=
  let funding_outputs := filterOutputsBy sh p.2
  if funding_outputs.isEmpty then st
  else
    { result := upsert2 st.result bh (p.1, p.2.txid)
        (fun e => { e with outputs := funding_outputs }),
      outpoints := extendDedup st.outpoints (make_outpoints p.2.txid funding_outputs),
      cache := (st.cache.add_tx p.2.txid p.2).add_proof bh p.2.txid (txids, p.1) }

/-- The funding-pass closure of `sync_confirmed`: record funding output
positions, cache tx and proof, extend the outpoint set. -/
def Status.funding_step (s : Status) (bh : Nat) (b : Block) (st : SCState) : SCState :=
  let txids := b.txdata.map (fun tx => tx.txid)
  b.txdata.enum.foldl (funding_tx_step s.scripthash bh txids) st

/-- One transaction of the spending pass: if some inputs spend tracked
outpoints, record the spent subset (the outpoint set is read, not extended). -/
def spending_tx_step (bh : Nat) (txids : List Nat) (st : SCState)
    (p : Nat × Tx) : SCState :=
  let spent_outpoints := Status.filter_inputs p.2 st.outpoints
  if spent_outpoints.isEmpty then st
  else
    { result := upsert2 st.result bh (p.1, p.2.txid)
        (fun e => { e with spent := spent_outpoints }),
      outpoints := st.outpoints,
      cache := (st.cache.add_tx p.2.txid p.2).add_proof bh p.2.txid (txids, p.1) }

/-- The spending-pass closure of `sync_confirmed`. -/
def Status.spending_step (bh : Nat) (b : Block) (st : SCState) : SCState :=
  let txids := b.txdata.map (fun tx => tx.txid)
  b.txdata.enum.foldl (spending_tx_step bh txids) st

/-- `(pos, txid)` lexicographic order of the flattening `BTreeMap`. -/
def posTxidLe (a b : Nat × Nat) : Bool :=
  decide (a.1 < b.1) || (a.1 == b.1 && decide (a.2 ≤ b.2))

/-- Flatten the result map: per block, entries sorted by `(pos, txid)` with
the position dropped. -/
def flattenResult (r : List (Nat × List ((Nat × Nat) × Entry))) :
    List (Nat × List TxEntry) :=
  r.map (fun p =>
    (p.1, (sortByLe (fun x y => posTxidLe x.1 y.1) p.2).map
      (fun q => TxEntry.new q.1.2 q.2)))

/-- `Status::sync_confirmed`: funding pass over `filter_by_funding` blocks,
then spending pass over `filter_by_spending` of the collected outpoints.
Returns the update (or the first fetch error), the cache, the outpoint set,
and the log of blockhashes requested from the daemon. -/
def Status.sync_confirmed (s : Status) (ix : Index) (d : Daemon) (c : Cache)
    (outpoints : List OutPoint) :
    Except Nat (List (Nat × List TxEntry)) × Cache × List OutPoint × List Nat :=
  let funding_blockhashes := ix.filter_by_funding s.scripthash
  match s.for_new_blocks funding_blockhashes d s.funding_step ⟨[], outpoints, c⟩ [] with
  | (st1, log1, some e) => (.error e, st1.cache, st1.outpoints, log1)
  | (st1, log1, none) =>
    let spending_blockhashes :=
      (st1.outpoints.flatMap (fun op => ix.filter_by_spending op)).dedup
    match s.for_new_blocks spending_blockhashes d Status.spending_step st1 log1 with
    | (st2, log2, some e) => (.error e, st2.cache, st2.outpoints, log2)
    | (st2, log2, none) => (.ok (flattenResult st2.result), st2.cache, st2.outpoints, log2)

/-- Mutable state of `sync_mempool`'s loops. -/
structure MPState where
  result : List (Nat × Entry)
  outpoints : List OutPoint
  cache : Cache

/-- The first loop body of `sync_mempool`: record a funding mempool entry. -/
def mempool_funding_step (sh : List Nat) (st : MPState) (e : MEntry) : MPState :=
  let funding_outputs := filterOutputsBy sh e.tx
  { result := upsert st.result e.txid ⟨[], []⟩
      (fun en => { en with outputs := funding_outputs }),
    outpoints := extendDedup st.outpoints (make_outpoints e.txid funding_outputs),
    cache := st.cache.add_tx e.txid e.tx }

/-- The second loop body of `sync_mempool`: record a spending mempool entry
(`ops1` is the borrowed outpoint set, constant during the loop). -/
def mempool_spending_step (ops1 : List OutPoint) (st : MPState) (e : MEntry) :
    MPState :=
  let spent_outpoints := Status.filter_inputs e.tx ops1
  { result := upsert st.result e.txid ⟨[], []⟩
      (fun en => { en with spent := spent_outpoints }),
    outpoints := st.outpoints,
    cache := st.cache.add_tx e.txid e.tx }

/-- `Status::sync_mempool`: record mempool funding entries (extending the
outpoint set), then mempool entries spending any tracked outpoint. The
source's two `assert!`s hold by `Mempool.filter_by_funding` /
`Mempool.filter_by_spending` and are not modelled. -/
def Status.sync_mempool (s : Status) (mp : Mempool) (c : Cache)
    (outpoints : List OutPoint) : List TxEntry × Cache × List OutPoint :=
  let st1 :=
    (mp.filter_by_funding s.scripthash).foldl (mempool_funding_step s.scripthash)
      (⟨[], outpoints, c⟩ : MPState)
  let st2 :=
    (st1.outpoints.flatMap (fun op => mp.filter_by_spending op)).foldl
      (mempool_spending_step st1.outpoints) st1
  (st2.result.map (fun p => TxEntry.new p.1 p.2), st2.cache, st1.outpoints)

/-! ## `Status::sync`. -/

structure SyncResult where
  status : Status
  cache : Cache
  err : Option Nat
deriving Repr

/-- The infallible tail of `Status::sync`: mempool sync, then the status
hash, assigned in source order. -/
def Status.sync_finish (s : Status) (ix : Index) (mp : Mempool) (c : Cache)
    (ops : List OutPoint) : SyncResult :=
  let r := s.sync_mempool mp c ops
  let s2 : Status := { s with mempool := r.1 }
  ⟨{ s2 with statushash := s2.compute_status_hash ix.chain mp }, r.2.1, none⟩

/-- `Status::sync`: seed outpoints from `funding_confirmed`; if the tip moved,
run `sync_confirmed` and merge its update (propagating its error before any
field of the Status is assigned); then always resync the mempool and
recompute the status hash. -/
def Status.sync (s : Status) (ix : Index) (mp : Mempool) (d : Daemon) (c : Cache) :
    SyncResult :=
  let outpoints := s.funding_confirmed ix.chain
  if s.tip ≠ ix.chain.tip then
    match s.sync_confirmed ix d c outpoints with
    | (.error e, c1, _, _) => ⟨s, c1, some e⟩
    | (.ok update, c1, ops1, _) =>
      Status.sync_finish
        { s with confirmed := extendMap s.confirmed update, tip := ix.chain.tip }
        ix mp c1 ops1
  else Status.sync_finish s ix mp c outpoints

/-- The fetch log of one `sync` call: all blockhashes requested from the
daemon, seeded exactly as `Status::sync` seeds `sync_confirmed`. -/
def Status.sync_log (s : Status) (ix : Index) (d : Daemon) (c : Cache) : List Nat :=
  (s.sync_confirmed ix d c (s.funding_confirmed ix.chain)).2.2.2

/-! ## The block indexer of `src/main.rs`.
Here hashes are their 32 byte lists (`Sha256dHash`); `tx.txid()` and
`block.bitcoin_hash()` are carried as fields, computed by the bitcoin
library in the source; a block's `header` field holds its serialized
80-byte header. -/

structure OldTx where
  txid : List Nat
  input : List (List Nat × Nat)
  output : List (List Nat)
deriving DecidableEq, Repr

structure OldBlock where
  header : List Nat
  hash : List Nat
  txdata : List OldTx
deriving DecidableEq, Repr

structure Row where
  key : List Nat
  value : List Nat
deriving DecidableEq, Repr

/-- The 8-byte truncation `HASH_LEN`. -/
def hashLen : Nat := 8

def zero32 : List Nat := List.replicate 32 0

/-- `prev_index as u16` written little-endian. -/
def leU16 (v : Nat) : List Nat := [v % 65536 % 256, v % 65536 / 256]

/-- `height as u32` written little-endian. -/
def leU32 (v : Nat) : List Nat :=
  [v % 4294967296 % 256, v % 4294967296 / 256 % 256,
   v % 4294967296 / 65536 % 256, v % 4294967296 / 16777216 % 256]

/-- A u32 written big-endian (layout the spec's `F`/`S` rows would use). -/
def beU32 (v : Nat) : List Nat :=
  [v % 4294967296 / 16777216 % 256, v % 4294967296 / 65536 % 256,
   v % 4294967296 / 256 % 256, v % 4294967296 % 256]

/-- `index_block`: per transaction, an `I` row (key `'I' ‖ prev_hash[..8] ‖
prev_index as LE u16`, value `txid[..8]`) for each non-coinbase input, an
`O` row (key `'O' ‖ SHA256(script_pubkey) ‖ txid[..8]`, empty value) for
each output, and a `T` row (key `'T' ‖ txid`, value height as LE u32); after
all transactions, a `B` row (key `'B' ‖ blockhash`, value the header). -/
def index_block (b : OldBlock) (height : Nat) : List Row :=
  b.txdata.flatMap
    (fun tx =>
      (tx.input.filter (fun i => !(i.1 == zero32))).map
        (fun i => Row.mk (73 :: (i.1.take hashLen ++ leU16 i.2)) (tx.txid.take hashLen))
      ++ tx.output.map
        (fun o => Row.mk (79 :: (sha256Bytes o ++ tx.txid.take hashLen)) [])
      ++ [Row.mk (84 :: tx.txid) (leU32 height)])
  ++ [Row.mk (66 :: b.hash) b.header]

/-- Outcome of one `index_blocks` call. `ok` is a completed run; the other
constructors are the source's aborts: a node I/O failure in
`daemon::get_bin`, a `deserialize(..).unwrap()` failure, and the
`assert_eq!` on the parsed block's hash. -/
inductive IndexOutcome where
  | ok : IndexOutcome
  | ioError : Nat → IndexOutcome
  | parseError : List Nat → IndexOutcome
  | hashMismatch : List Nat → List Nat → IndexOutcome
deriving DecidableEq, Repr

/-- Modelled from the spec: `daemon.rs` and `store.rs` are not under `src`.
`get_bin` fetches a raw block, failing with a retryable node I/O error;
`persist` appends a block's rows as one batch (already-written batches
survive an abort). -/
structure OldDaemon where
  get_bin : List Nat → Except Nat (List Nat)

/-- The loop of `index_blocks` over pending `(height, blockhash)` pairs with
`parse` standing for `deserialize`: fetch, parse, check the parsed block's
hash against the expected one, persist the block's rows, continue. -/
def index_blocks_loop (d : OldDaemon) (parse : List Nat → Option OldBlock) :
    List (Nat × List Nat) → List Row → List Row × IndexOutcome
  | [], persisted => (persisted, .ok)
  | (height, blockhash) :: rest, persisted =>
    match d.get_bin blockhash with
    | .error e => (persisted, .ioError e)
    | .ok buf =>
      match parse buf with
      | none => (persisted, .parseError blockhash)
      | some b =>
        if b.hash ≠ blockhash then (persisted, .hashMismatch blockhash b.hash)
        else index_blocks_loop d parse rest (persisted ++ index_block b height)

/-! ## Helper lemmas. -/

lemma hashFold_eq {α : Type} (g : α → List Nat) (l : List α) (init : List Nat) :
    l.foldl (fun en e => en ++ g e) init = init ++ (l.map g).flatten := by
  induction l generalizing init with
  | nil => simp
  | cons x xs ih => simp [ih, List.append_assoc]

/-- C1: when the rendered confirmed and mempool lists are not both empty, the
status hash is the SHA-256 digest of the concatenation, entry by entry, of
the ASCII renderings `"{txid_hex}:{height}:"`, all confirmed entries first
and then all mempool entries, in list order with no separator; when both
lists are empty it is `none`, not a hash of empty input. -/
theorem c1_status_hash (s : Status) (chain : Chain) (mp : Mempool) :
    s.compute_status_hash chain mp =
      if s.get_confirmed chain = [] ∧ s.get_mempool mp = [] then none
      else
        some (sha256Bytes
          (((s.get_confirmed chain).map (fun e => strBytes e.hashStr)).flatten ++
            ((s.get_mempool mp).map (fun e => strBytes e.hashStr)).flatten)) := by
  unfold Status.compute_status_hash
  simp only [ConfirmedEntry.hash, MempoolEntry.hash, hashFold_eq, List.nil_append]
  rcases hc : s.get_confirmed chain with _ | ⟨e, es⟩ <;>
    rcases hm : s.get_mempool mp with _ | ⟨f, fs⟩ <;> simp

lemma mem_insertLe {α : Type} (le : α → α → Bool) (x : α) (l : List α) (z : α) :
    z ∈ insertLe le x l ↔ z = x ∨ z ∈ l := by
  induction l with
  | nil => simp [insertLe]
  | cons y ys ih =>
    by_cases h : le y x <;> simp [insertLe, h, ih] <;> tauto

lemma pairwise_insertLe {α : Type} (le : α → α → Bool)
    (htot : ∀ x y, le x y = true ∨ le y x = true)
    (htrans : ∀ x y z, le x y = true → le y z = true → le x z = true)
    (x : α) (l : List α) (h : l.Pairwise (fun a b => le a b = true)) :
    (insertLe le x l).Pairwise (fun a b => le a b = true) := by
  induction l with
  | nil => simp [insertLe]
  | cons y ys ih =>
    rw [List.pairwise_cons] at h
    by_cases hyx : le y x = true
    · rw [insertLe, if_pos hyx, List.pairwise_cons]
      refine ⟨fun z hz => ?_, ih h.2⟩
      rcases (mem_insertLe le x ys z).1 hz with rfl | hz
      · exact hyx
      · exact h.1 z hz
    · have hxy : le x y = true := (htot x y).resolve_right (by simpa using hyx)
      rw [insertLe, if_neg hyx, List.pairwise_cons]
      refine ⟨fun z hz => ?_, List.pairwise_cons.mpr h⟩
      rcases hz with _ | hz
      · exact hxy
      · exact htrans x y z hxy (h.1 z (by assumption))

lemma pairwise_sortByLe {α : Type} (le : α → α → Bool)
    (htot : ∀ x y, le x y = true ∨ le y x = true)
    (htrans : ∀ x y z, le x y = true → le y z = true → le x z = true)
    (l : List α) : (sortByLe le l).Pairwise (fun a b => le a b = true) := by
  induction l with
  | nil => simp [sortByLe]
  | cons x xs ih => exact pairwise_insertLe le htot htrans x _ ih

lemma mem_sortByLe {α : Type} (le : α → α → Bool) (l : List α) (z : α) :
    z ∈ sortByLe le l ↔ z ∈ l := by
  induction l with
  | nil => simp [sortByLe]
  | cons x xs ih => simp [sortByLe, mem_insertLe, ih]

lemma mkeyLe_total (a b : MEntry) : mkeyLe a b = true ∨ mkeyLe b a = true := by
  unfold mkeyLe
  by_cases h : a.has_unconfirmed_inputs = b.has_unconfirmed_inputs
  · simp [h]; omega
  · rcases hb : b.has_unconfirmed_inputs <;> rcases ha : a.has_unconfirmed_inputs <;>
      simp_all

lemma mkeyLe_trans (a b c : MEntry) (h1 : mkeyLe a b = true) (h2 : mkeyLe b c = true) :
    mkeyLe a c = true := by
  unfold mkeyLe at *
  rcases ha : a.has_unconfirmed_inputs <;> rcases hb : b.has_unconfirmed_inputs <;>
    rcases hc : c.has_unconfirmed_inputs <;> simp_all <;> omega

/-- The `(has_unconfirmed_inputs, txid)` order on rendered mempool entries. -/
def mpKeyLe (a b : MempoolEntry) : Bool :=
  if a.has_unconfirmed_inputs = b.has_unconfirmed_inputs then decide (a.txid ≤ b.txid)
  else b.has_unconfirmed_inputs

lemma mem_btreeInsert {β : Type} (m : List (Nat × β)) (k : Nat) (v : β) (z : Nat × β) :
    z ∈ btreeInsert m k v → z = (k, v) ∨ z ∈ m := by
  induction m with
  | nil => simp [btreeInsert]
  | cons q rest ih =>
    rcases q with ⟨q1, w⟩
    unfold btreeInsert
    by_cases h1 : k < q1
    · simp [h1]
    · by_cases h2 : k = q1 <;> simp [h1, h2] <;> intro h <;> rcases h with h | h <;>
        first | tauto | (rcases ih h with h' | h' <;> tauto)

lemma btreeInsert_sorted {β : Type} (m : List (Nat × β)) (k : Nat) (v : β)
    (h : m.Pairwise (fun a b => a.1 < b.1)) :
    (btreeInsert m k v).Pairwise (fun a b => a.1 < b.1) := by
  induction m with
  | nil => simp [btreeInsert]
  | cons q rest ih =>
    rcases q with ⟨q1, w⟩
    rw [List.pairwise_cons] at h
    unfold btreeInsert
    by_cases h1 : k < q1
    · simp only [if_pos h1]
      rw [List.pairwise_cons]
      refine ⟨fun z hz => ?_, List.pairwise_cons.mpr h⟩
      rcases hz with _ | hz
      · exact h1
      · exact Nat.lt_trans h1 (h.1 z (by assumption))
    · by_cases h2 : k = q1
      · simp only [if_neg h1, if_pos h2, List.pairwise_cons]
        exact ⟨fun z hz => h2 ▸ h.1 z hz, h.2⟩
      · simp only [if_neg h1, if_neg h2, List.pairwise_cons]
        refine ⟨fun z hz => ?_, ih h.2⟩
        rcases mem_btreeInsert rest k v z hz with rfl | hz'
        · omega
        · exact h.1 z hz'

lemma btreeFold_sorted {β : Type} (l : List (Nat × β)) (m : List (Nat × β))
    (h : m.Pairwise (fun a b => a.1 < b.1)) :
    (l.foldl (fun acc q => btreeInsert acc q.1 q.2) m).Pairwise (fun a b => a.1 < b.1) := by
  induction l generalizing m with
  | nil => simpa
  | cons q rest ih => exact ih _ (btreeInsert_sorted m q.1 q.2 h)

lemma pairwise_const_height (es : List TxEntry) (h1 : Nat) :
    (es.map (fun e => ConfirmedEntry.mk e.txid h1)).Pairwise
      (fun a b => a.height ≤ b.height) := by
  induction es with
  | nil => simp
  | cons e es ih =>
    rw [List.map_cons, List.pairwise_cons]
    exact ⟨fun z hz => by rcases List.mem_map.1 hz with ⟨w, _, rfl⟩; simp, ih⟩

lemma heights_mono (m : List (Nat × List TxEntry))
    (h : m.Pairwise (fun a b => a.1 < b.1)) :
    (m.flatMap (fun q => q.2.map (fun e => ConfirmedEntry.mk e.txid q.1))).Pairwise
      (fun a b => a.height ≤ b.height) := by
  induction m with
  | nil => simp
  | cons q rest ih =>
    rw [List.pairwise_cons] at h
    rw [List.flatMap_cons, List.pairwise_append]
    refine ⟨pairwise_const_height q.2 q.1, ih h.2, fun a ha b hb => ?_⟩
    rcases List.mem_map.1 ha with ⟨w, _, rfl⟩
    rcases List.mem_flatMap.1 hb with ⟨p, hp, hb'⟩
    rcases List.mem_map.1 hb' with ⟨w', _, rfl⟩
    simpa using Nat.le_of_lt (h.1 p hp)

lemma posTxidLe_total (a b : Nat × Nat) : posTxidLe a b = true ∨ posTxidLe b a = true := by
  simp only [posTxidLe, Bool.or_eq_true, Bool.and_eq_true, decide_eq_true_eq, beq_iff_eq]
  omega

lemma posTxidLe_trans (a b c : Nat × Nat) (h1 : posTxidLe a b = true)
    (h2 : posTxidLe b c = true) : posTxidLe a c = true := by
  simp only [posTxidLe, Bool.or_eq_true, Bool.and_eq_true, decide_eq_true_eq,
    beq_iff_eq] at *
  omega

/-- C5: the rendered mempool list is sorted by `(has_unconfirmed_inputs,
txid)`; a mempool entry is hashed with height −1 when it has unconfirmed
inputs and 0 otherwise; the rendered confirmed list is height-sorted, and the
per-block flattening of `sync_confirmed` sorts entries by `(pos, txid)`. -/
theorem c5_ordering (s : Status) (chain : Chain) (mp : Mempool) :
    (s.get_mempool mp).Pairwise (fun a b => mpKeyLe a b = true) ∧
    (∀ (e : MempoolEntry) (engine : List Nat),
        e.hash engine =
          engine ++ strBytes (txidHex e.txid ++ ":" ++
            toString (if e.has_unconfirmed_inputs then (-1 : Int) else 0) ++ ":")) ∧
    (s.get_confirmed chain).Pairwise (fun a b => a.height ≤ b.height) ∧
    (∀ (m : List ((Nat × Nat) × Entry)),
        (sortByLe (fun x y => posTxidLe x.1 y.1) m).Pairwise
          (fun a b => posTxidLe a.1 b.1 = true)) := by
  refine ⟨?_, ?_, ?_, ?_⟩
  · unfold Status.get_mempool
    rw [List.pairwise_map]
    refine (pairwise_sortByLe mkeyLe mkeyLe_total mkeyLe_trans _).imp ?_
    intro a b hab
    simpa [mkeyLe, mpKeyLe] using hab
  · intro e engine
    simp [MempoolEntry.hash, MempoolEntry.hashStr, MempoolEntry.height]
  · unfold Status.get_confirmed
    exact heights_mono _ (btreeFold_sorted _ [] (by simp))
  · intro m
    exact pairwise_sortByLe _ (fun x y => posTxidLe_total x.1 y.1)
      (fun x y z => posTxidLe_trans x.1 y.1 z.1) m

lemma nodup_insertDedup {α : Type} [DecidableEq α] (l : List α) (x : α)
    (h : l.Nodup) : (insertDedup l x).Nodup := by
  unfold insertDedup
  split
  · exact h
  · simp_all [List.nodup_append]

lemma nodup_extendDedup {α : Type} [DecidableEq α] (l xs : List α) (h : l.Nodup) :
    (extendDedup l xs).Nodup := by
  induction xs generalizing l with
  | nil => exact h
  | cons x xs ih => exact ih _ (nodup_insertDedup l x h)

lemma nodup_fundedOutpoints (s : Status) (chain : Chain) :
    (fundedOutpoints s chain).Nodup :=
  nodup_extendDedup _ _ (nodup_extendDedup _ _ List.nodup_nil)

lemma removeFold_none (spent : List OutPoint) :
    spent.foldl
      (fun acc op => acc.bind (fun u => if op ∈ u then some (u.erase op) else none))
      (none : Option (List OutPoint)) = none := by
  induction spent with
  | nil => rfl
  | cons op rest ih => rw [List.foldl_cons]; simpa using ih

lemma removeFold_eq (spent : List OutPoint) (funded : List OutPoint)
    (hn : funded.Nodup) :
    spent.foldl
      (fun acc op => acc.bind (fun u => if op ∈ u then some (u.erase op) else none))
      (some funded) =
      if spent.Nodup ∧ ∀ op ∈ spent, op ∈ funded
      then some (funded.filter (fun x => decide (x ∉ spent)))
      else none := by
  induction spent generalizing funded with
  | nil => simp
  | cons op rest ih =>
    by_cases hmem : op ∈ funded
    · rw [List.foldl_cons]
      have hstep :
          (some funded).bind
            (fun u => if op ∈ u then some (u.erase op) else none) =
          some (funded.erase op) := by simp [hmem]
      rw [hstep, ih (funded.erase op) (hn.erase op)]
      have hcond : (rest.Nodup ∧ ∀ x ∈ rest, x ∈ funded.erase op) ↔
          ((op :: rest).Nodup ∧ ∀ x ∈ op :: rest, x ∈ funded) := by
        simp only [List.nodup_cons, List.mem_cons, hn.mem_erase_iff]
        constructor
        · rintro ⟨h1, h2⟩
          refine ⟨⟨fun hc => ((h2 op hc).1 rfl).elim, h1⟩, fun x hx => ?_⟩
          rcases hx with rfl | hx
          · exact hmem
          · exact (h2 x hx).2
        · rintro ⟨⟨h0, h1⟩, h2⟩
          exact ⟨h1, fun x hx => ⟨fun he => h0 (he ▸ hx), h2 x (Or.inr hx)⟩⟩
      have hval : (funded.erase op).filter (fun x => decide (x ∉ rest)) =
          funded.filter (fun x => decide (x ∉ op :: rest)) := by
        rw [hn.erase_eq_filter, List.filter_filter]
        refine List.filter_congr (fun x _ => ?_)
        by_cases hxo : x = op <;> by_cases hxr : x ∈ rest <;>
          simp [hxo, hxr, List.mem_cons]
      rw [hval]
      by_cases hc : rest.Nodup ∧ ∀ x ∈ rest, x ∈ funded.erase op
      · rw [if_pos hc, if_pos (hcond.1 hc)]
      · rw [if_neg hc, if_neg (fun h => hc (hcond.2 h))]
    · rw [List.foldl_cons]
      have hstep :
          (some funded).bind
            (fun u => if op ∈ u then some (u.erase op) else none) = none := by
        simp [hmem]
      rw [hstep, removeFold_none]
      rw [if_neg]
      rintro ⟨-, h2⟩
      exact hmem (h2 op (List.mem_cons_self op rest))

/-- C3: when `get_unspent` succeeds, it returns exactly the outpoints funded
across active-chain confirmed and mempool entries minus the ones spent across
the same entries; a spent outpoint absent from the funded set makes it fail
loudly (the source's `assert!`), never silently ignored. -/
theorem c3_get_unspent (s : Status) (chain : Chain) :
    (∀ u, s.get_unspent chain = some u →
        ∀ op : OutPoint,
          op ∈ u ↔ op ∈ fundedOutpoints s chain ∧ op ∉ spentOutpoints s chain) ∧
    (∀ op : OutPoint, op ∈ spentOutpoints s chain →
        op ∉ fundedOutpoints s chain → s.get_unspent chain = none) := by
  have key := removeFold_eq (spentOutpoints s chain) (fundedOutpoints s chain)
    (nodup_fundedOutpoints s chain)
  constructor
  · intro u hu op
    rw [Status.get_unspent, key] at hu
    split at hu
    · cases hu
      simp [List.mem_filter]
    · cases hu
  · intro op h1 h2
    rw [Status.get_unspent, key, if_neg]
    rintro ⟨-, h⟩
    exact h2 (h op h1)

/-- Witness for C3 at a concrete input: a Status whose confirmed entry spends
an outpoint never funded makes `get_unspent` fail. -/
theorem c3_get_unspent_witness :
    (Status.mk [] 0 none [(5, [TxEntry.mk 7 [] [(9, 0)]])] []).get_unspent
      (Chain.mk 5 (fun bh => if bh = 5 then some 1 else none)) = none :=
  (c3_get_unspent _ _).2 (9, 0) (by decide) (by decide)

/-- C4: entries recorded under a block that is not on the active chain are
invisible to `get_confirmed`, `get_unspent` and the status-hash computation:
deleting that block's entry from the `confirmed` map changes none of them. -/
theorem c4_stale_block_invisible (s : Status) (chain : Chain) (mp : Mempool)
    (b : Nat) (v : List TxEntry) (pre post : List (Nat × List TxEntry))
    (hconf : s.confirmed = pre ++ (b, v) :: post)
    (hb : chain.get_block_height b = none) :
    s.get_confirmed chain =
      ({ s with confirmed := pre ++ post } : Status).get_confirmed chain ∧
    s.get_unspent chain =
      ({ s with confirmed := pre ++ post } : Status).get_unspent chain ∧
    s.compute_status_hash chain mp =
      ({ s with confirmed := pre ++ post } : Status).compute_status_hash chain mp := by
  have h1 : (pre ++ (b, v) :: post).filter
      (fun p => (chain.get_block_height p.1).isSome) =
      (pre ++ post).filter (fun p => (chain.get_block_height p.1).isSome) := by
    simp [List.filter_append, List.filter_cons, hb]
  have h2 : (pre ++ (b, v) :: post).filterMap
      (fun p => (chain.get_block_height p.1).map (fun h => (h, p.2))) =
      (pre ++ post).filterMap
        (fun p => (chain.get_block_height p.1).map (fun h => (h, p.2))) := by
    simp [List.filterMap_append, List.filterMap_cons, hb]
  have hgc : s.get_confirmed chain =
      ({ s with confirmed := pre ++ post } : Status).get_confirmed chain := by
    unfold Status.get_confirmed
    rw [hconf]
    simp only [h2]
  refine ⟨hgc, ?_, ?_⟩
  · unfold Status.get_unspent fundedOutpoints spentOutpoints Status.funding_confirmed
    rw [hconf]
    simp only [h1]
  · unfold Status.compute_status_hash
    rw [hgc]
    rfl

/-- Witness for C4 at a concrete input: one stale block in `confirmed`. -/
theorem c4_stale_block_invisible_witness :
    (Status.mk [] 0 none [(5, [TxEntry.mk 7 [0] []])] []).get_confirmed
        (Chain.mk 1 (fun _ => none)) =
      ({ Status.mk [] 0 none [(5, [TxEntry.mk 7 [0] []])] [] with
          confirmed := [] } : Status).get_confirmed (Chain.mk 1 (fun _ => none)) :=
  (c4_stale_block_invisible (Status.mk [] 0 none [(5, [TxEntry.mk 7 [0] []])] [])
    (Chain.mk 1 (fun _ => none)) (Mempool.mk []) 5 [TxEntry.mk 7 [0] []] [] []
    rfl rfl).1

/-- C7: an error of the confirmed phase is propagated before any field of the
Status is assigned, and on success the whole update is merged by one extend. -/
theorem c7_sync_error_atomic (s : Status) (ix : Index) (mp : Mempool)
    (d : Daemon) (c : Cache) :
    (∀ e, (s.sync ix mp d c).err = some e → (s.sync ix mp d c).status = s) ∧
    (∀ update c1 ops log,
        s.sync_confirmed ix d c (s.funding_confirmed ix.chain) =
          (.ok update, c1, ops, log) →
        s.tip ≠ ix.chain.tip →
        (s.sync ix mp d c).status.confirmed = extendMap s.confirmed update) := by
  constructor
  · intro e he
    unfold Status.sync at he ⊢
    by_cases h : s.tip ≠ ix.chain.tip
    · simp only [if_pos h] at he ⊢
      rcases hsc : s.sync_confirmed ix d c (s.funding_confirmed ix.chain) with
        ⟨res, c1, ops, log⟩
      cases res with
      | error e' => rfl
      | ok u => rw [hsc] at he; simp [Status.sync_finish] at he
    · simp only [if_neg h] at he
      simp [Status.sync_finish] at he
  · intro update c1 ops log hsc h
    unfold Status.sync
    simp only [if_pos h, hsc]
    rfl

/-! Concrete fixture: a script hash with a funding block `10` that the daemon
serves and a second claimed funding block `11` whose fetch fails. -/

def txA : Tx := ⟨100, [(999, 0)], [[7]]⟩

def blockW : Block := ⟨[txA]⟩

def chainW : Chain :=
  ⟨1, fun bh => if bh = 10 then some 1 else if bh = 11 then some 2 else none⟩

def ixW : Index := ⟨chainW, fun _ => [10, 11], fun _ => []⟩

def dW : Daemon := ⟨fun bh => if bh = 10 then .ok blockW else .error 5⟩

def sW : Status := Status.new (ScriptHash.new [7])

/-- Witness for C7 at the concrete fixture: the sync fails yet the Status is
returned unchanged. -/
theorem c7_sync_error_atomic_witness :
    (sW.sync ixW (Mempool.mk []) dW (Cache.mk [] [])).status = sW :=
  (c7_sync_error_atomic sW ixW (Mempool.mk []) dW (Cache.mk [] [])).1 5 (by decide)

/-- C10: at the concrete fixture, `sync` fails (block 11's fetch errors) and
the Status is unchanged, yet the shared cache keeps the transaction and proof
added for block 10, processed before the failure: sync's atomicity covers
the Status's own fields only, not the shared cache. -/
theorem c10_cache_survives_failed_sync :
    (sW.sync ixW (Mempool.mk []) dW (Cache.mk [] [])).err = some 5 ∧
    (sW.sync ixW (Mempool.mk []) dW (Cache.mk [] [])).status = sW ∧
    (sW.sync ixW (Mempool.mk []) dW (Cache.mk [] [])).cache =
      Cache.mk [(100, txA)] [((10, 100), ([100], 0))] := by
  refine ⟨by decide, by decide, by decide⟩

/-- The row layout claim C2 states for the indexer (the spec's `F`/`S` rows):
funding key = tag ‖ 32-byte script hash ‖ BE-u32 height ‖ full txid ‖ u32
position, empty value; spending key = tag ‖ full funding txid ‖ LE-u32 vout
‖ BE-u32 height ‖ full spending txid ‖ position, empty value. -/
def c2_claimed_rows (b : OldBlock) (height : Nat) : Prop :=
  (∀ p ∈ b.txdata.enum, ∀ o ∈ p.2.output,
      Row.mk (70 :: (sha256Bytes o ++ beU32 height ++ p.2.txid ++ leU32 p.1)) []
        ∈ index_block b height) ∧
  (∀ p ∈ b.txdata.enum, ∀ i ∈ p.2.input, i.1 ≠ zero32 →
      Row.mk (83 :: (i.1 ++ leU32 i.2 ++ beU32 height ++ p.2.txid ++ leU32 p.1)) []
        ∈ index_block b height)

def t32 : List Nat := List.range 32

def txO : OldTx := ⟨t32, [(List.replicate 32 3, 7)], [[7]]⟩

def blockO : OldBlock := ⟨List.replicate 80 0, List.replicate 32 2, [txO]⟩

/-- C2 counterexample: at a concrete one-transaction block, `index_block`
writes no row of the claimed funding/spending layout at all. -/
theorem c2_counterexample : ¬ c2_claimed_rows blockO 5 := by
  unfold c2_claimed_rows
  decide

/-- C2 amended: for every output, `index_block` writes a row keyed
`'O' ‖ SHA256(script) ‖ txid[..8]` with empty value, and for every
non-coinbase input a row keyed `'I' ‖ prev_txid[..8] ‖ prev_index as LE u16`
whose value is the spending txid's first 8 bytes. -/
theorem c2_amended (b : OldBlock) (height : Nat) :
    ∀ tx ∈ b.txdata,
      (∀ o ∈ tx.output,
          Row.mk (79 :: (sha256Bytes o ++ tx.txid.take hashLen)) []
            ∈ index_block b height) ∧
      (∀ i ∈ tx.input, i.1 ≠ zero32 →
          Row.mk (73 :: (i.1.take hashLen ++ leU16 i.2)) (tx.txid.take hashLen)
            ∈ index_block b height) := by
  intro tx htx
  constructor
  · intro o ho
    unfold index_block
    refine List.mem_append_left _ ?_
    refine List.mem_flatMap.mpr ⟨tx, htx, ?_⟩
    refine List.mem_append_left _ (List.mem_append_right _ ?_)
    exact List.mem_map.mpr ⟨o, ho, rfl⟩
  · intro i hi hnz
    unfold index_block
    refine List.mem_append_left _ ?_
    refine List.mem_flatMap.mpr ⟨tx, htx, ?_⟩
    refine List.mem_append_left _ (List.mem_append_left _ ?_)
    refine List.mem_map.mpr ⟨i, ?_, rfl⟩
    refine List.mem_filter.mpr ⟨hi, ?_⟩
    simpa using hnz

/-- Witness for the amended C2 at the concrete block. -/
theorem c2_amended_witness :
    Row.mk (79 :: (sha256Bytes [7] ++ t32.take hashLen)) [] ∈ index_block blockO 5 ∧
    Row.mk (73 :: ((List.replicate 32 3).take hashLen ++ leU16 7)) (t32.take hashLen)
      ∈ index_block blockO 5 :=
  ⟨(c2_amended blockO 5 txO (by decide)).1 [7] (by decide),
   (c2_amended blockO 5 txO (by decide)).2 (List.replicate 32 3, 7) (by decide)
     (by decide)⟩

lemma loop_cons_io (d : OldDaemon) (parse : List Nat → Option OldBlock)
    (height : Nat) (bh : List Nat) (rest : List (Nat × List Nat))
    (persisted : List Row) (e : Nat) (hb : d.get_bin bh = .error e) :
    index_blocks_loop d parse ((height, bh) :: rest) persisted =
      (persisted, .ioError e) := by
  unfold index_blocks_loop
  rw [hb]

lemma loop_cons_parse (d : OldDaemon) (parse : List Nat → Option OldBlock)
    (height : Nat) (bh : List Nat) (rest : List (Nat × List Nat))
    (persisted : List Row) (buf : List Nat)
    (hb : d.get_bin bh = .ok buf) (hp : parse buf = none) :
    index_blocks_loop d parse ((height, bh) :: rest) persisted =
      (persisted, .parseError bh) := by
  unfold index_blocks_loop
  rw [hb]
  simp only [hp]

lemma loop_cons_mismatch (d : OldDaemon) (parse : List Nat → Option OldBlock)
    (height : Nat) (bh : List Nat) (rest : List (Nat × List Nat))
    (persisted : List Row) (buf : List Nat) (b : OldBlock)
    (hb : d.get_bin bh = .ok buf) (hp : parse buf = some b) (hne : b.hash ≠ bh) :
    index_blocks_loop d parse ((height, bh) :: rest) persisted =
      (persisted, .hashMismatch bh b.hash) := by
  unfold index_blocks_loop
  rw [hb]
  simp only [hp]
  rw [if_pos hne]

lemma loop_cons_ok (d : OldDaemon) (parse : List Nat → Option OldBlock)
    (height : Nat) (bh : List Nat) (rest : List (Nat × List Nat))
    (persisted : List Row) (buf : List Nat) (b : OldBlock)
    (hb : d.get_bin bh = .ok buf) (hp : parse buf = some b) (hne : ¬ b.hash ≠ bh) :
    index_blocks_loop d parse ((height, bh) :: rest) persisted =
      index_blocks_loop d parse rest (persisted ++ index_block b height) := by
  unfold index_blocks_loop
  rw [hb]
  simp only [hp]
  rw [if_neg hne]
  exact index_blocks_loop.eq_def d parse rest (persisted ++ index_block b height)

lemma index_blocks_loop_prefix (d : OldDaemon) (parse : List Nat → Option OldBlock)
    (pending : List (Nat × List Nat)) (persisted : List Row) :
    ∃ extra, (index_blocks_loop d parse pending persisted).1 = persisted ++ extra := by
  induction pending generalizing persisted with
  | nil => exact ⟨[], by simp [index_blocks_loop]⟩
  | cons p rest ih =>
    rcases p with ⟨height, bh⟩
    rcases hb : d.get_bin bh with e | buf
    · exact ⟨[], by rw [loop_cons_io d parse height bh rest persisted e hb]; simp⟩
    · rcases hp : parse buf with _ | b
      · exact ⟨[], by
          rw [loop_cons_parse d parse height bh rest persisted buf hb hp]; simp⟩
      · by_cases hne : b.hash ≠ bh
        · exact ⟨[], by
            rw [loop_cons_mismatch d parse height bh rest persisted buf b hb hp hne]
            simp⟩
        · rw [loop_cons_ok d parse height bh rest persisted buf b hb hp hne]
          rcases ih (persisted ++ index_block b height) with ⟨extra, hx⟩
          exact ⟨index_block b height ++ extra, by rw [hx, List.append_assoc]⟩

/-- C8: every fetched block is parsed and its computed hash checked against
the expected blockhash; a mismatch aborts the call with an outcome distinct
from I/O errors; an I/O or parse failure aborts the call; in every abort the
rows already persisted are kept, and a successfully processed prefix's
batches accumulate and survive into the continuation. -/
theorem c8_index_blocks_failures (d : OldDaemon)
    (parse : List Nat → Option OldBlock) :
    (∀ (height : Nat) (bh : List Nat) (rest : List (Nat × List Nat))
        (persisted : List Row) (e : Nat),
        d.get_bin bh = .error e →
        index_blocks_loop d parse ((height, bh) :: rest) persisted =
          (persisted, .ioError e)) ∧
    (∀ (height : Nat) (bh : List Nat) (rest : List (Nat × List Nat))
        (persisted : List Row) (buf : List Nat),
        d.get_bin bh = .ok buf → parse buf = none →
        index_blocks_loop d parse ((height, bh) :: rest) persisted =
          (persisted, .parseError bh)) ∧
    (∀ (height : Nat) (bh : List Nat) (rest : List (Nat × List Nat))
        (persisted : List Row) (buf : List Nat) (b : OldBlock),
        d.get_bin bh = .ok buf → parse buf = some b → b.hash ≠ bh →
        index_blocks_loop d parse ((height, bh) :: rest) persisted =
          (persisted, .hashMismatch bh b.hash)) ∧
    (∀ (bh hsh : List Nat) (e : Nat),
        IndexOutcome.hashMismatch bh hsh ≠ IndexOutcome.ioError e) ∧
    (∀ (done todo : List (Nat × List Nat)) (persisted rows : List Row),
        index_blocks_loop d parse done persisted = (persisted ++ rows, .ok) →
        index_blocks_loop d parse (done ++ todo) persisted =
          index_blocks_loop d parse todo (persisted ++ rows)) := by
  refine ⟨?_, ?_, ?_, ?_, ?_⟩
  · intro height bh rest persisted e hb
    exact loop_cons_io d parse height bh rest persisted e hb
  · intro height bh rest persisted buf hb hp
    exact loop_cons_parse d parse height bh rest persisted buf hb hp
  · intro height bh rest persisted buf b hb hp hne
    exact loop_cons_mismatch d parse height bh rest persisted buf b hb hp hne
  · intro bh hsh e h
    exact IndexOutcome.noConfusion h
  intro done
  induction done with
  | nil =>
    intro todo persisted rows h
    unfold index_blocks_loop at h
    have h1 : persisted = persisted ++ rows := congrArg Prod.fst h
    rw [List.nil_append, ← h1]
  | cons p rest ih =>
    intro todo persisted rows h
    rcases p with ⟨height, bh⟩
    rcases hb : d.get_bin bh with e | buf
    · rw [loop_cons_io d parse height bh rest persisted e hb] at h
      exact absurd (congrArg Prod.snd h) (by simp)
    · rcases hp : parse buf with _ | b
      · rw [loop_cons_parse d parse height bh rest persisted buf hb hp] at h
        exact absurd (congrArg Prod.snd h) (by simp)
      · by_cases hne : b.hash ≠ bh
        · rw [loop_cons_mismatch d parse height bh rest persisted buf b hb hp hne] at h
          exact absurd (congrArg Prod.snd h) (by simp)
        · rw [loop_cons_ok d parse height bh rest persisted buf b hb hp hne] at h
          rw [List.cons_append,
            loop_cons_ok d parse height bh (rest ++ todo) persisted buf b hb hp hne]
          rcases index_blocks_loop_prefix d parse rest
            (persisted ++ index_block b height) with ⟨extra, hx⟩
          rw [h] at hx
          have hx' : persisted ++ rows = persisted ++ index_block b height ++ extra :=
            hx
          have hrows : rows = index_block b height ++ extra := by
            rw [List.append_assoc] at hx'
            exact List.append_cancel_left hx'
          have h2 : index_blocks_loop d parse rest
              (persisted ++ index_block b height) =
              (persisted ++ index_block b height ++ extra, .ok) := by
            rw [h, hx']
          rw [ih todo (persisted ++ index_block b height) extra h2, hrows,
            ← List.append_assoc]

/-! Concrete fixture for the fetch-log analysis: block 10 both funds the
script (via `txA`) and spends the funded outpoint (via `txB`). -/

def txB : Tx := ⟨101, [(100, 0)], [[8]]⟩

def blockN : Block := ⟨[txA, txB]⟩

def chainN : Chain := ⟨1, fun bh => if bh = 10 then some 1 else none⟩

def ixN : Index :=
  ⟨chainN, fun _ => [10], fun op => if op = (100, 0) then [10] else []⟩

def dN : Daemon := ⟨fun bh => if bh = 10 then .ok blockN else .error 9⟩

/-- C9 counterexample: within one sync, block 10 is fetched by the funding
pass and again by the spending pass — the fetch log is `[10, 10]`, so blocks
are not fetched at most once. -/
theorem c9_counterexample :
    Status.sync_log (Status.new (ScriptHash.new [7])) ixN dN (Cache.mk [] []) =
      [10, 10] ∧
    ¬ (Status.sync_log (Status.new (ScriptHash.new [7])) ixN dN
        (Cache.mk [] [])).Nodup := by
  refine ⟨by decide, by decide⟩

lemma for_blocks_log_mem {σ : Type} (d : Daemon) (bs : List Nat)
    (f : Nat → Block → σ → σ) (st : σ) (log : List Nat) (x : Nat)
    (hx : x ∈ (d.for_blocks bs f st log).2.1) : x ∈ log ∨ x ∈ bs := by
  induction bs generalizing st log with
  | nil =>
    unfold Daemon.for_blocks at hx
    exact Or.inl hx
  | cons bh rest ih =>
    unfold Daemon.for_blocks at hx
    rcases hf : d.fetch bh with e | b <;> rw [hf] at hx
    · simp only [List.mem_append, List.mem_singleton] at hx
      rcases hx with hx | hx
      · exact Or.inl hx
      · exact Or.inr (by simp [hx])
    · rcases ih (f bh b st) (log ++ [bh]) hx with hx' | hx'
      · simp only [List.mem_append, List.mem_singleton] at hx'
        rcases hx' with hx' | hx'
        · exact Or.inl hx'
        · exact Or.inr (by simp [hx'])
      · exact Or.inr (by simp [hx'])

lemma mem_new_blocks (s : Status) (bs : List Nat) (x : Nat)
    (hx : x ∈ new_blocks s bs) : containsKey s.confirmed x = false := by
  unfold new_blocks at hx
  rcases List.mem_filter.1 hx with ⟨-, h⟩
  simpa using h

lemma for_new_blocks_log_mem {σ : Type} (s : Status) (bs : List Nat) (d : Daemon)
    (f : Nat → Block → σ → σ) (st : σ) (log : List Nat) (x : Nat)
    (hx : x ∈ (s.for_new_blocks bs d f st log).2.1) :
    x ∈ log ∨ containsKey s.confirmed x = false := by
  rcases for_blocks_log_mem d (new_blocks s bs) f st log x hx with h | h
  · exact Or.inl h
  · exact Or.inr (mem_new_blocks s bs x h)

lemma sync_confirmed_log_mem (s : Status) (ix : Index) (d : Daemon) (c : Cache)
    (ops : List OutPoint) (x : Nat)
    (hx : x ∈ (s.sync_confirmed ix d c ops).2.2.2) :
    containsKey s.confirmed x = false := by
  simp only [Status.sync_confirmed] at hx
  rcases h1 : s.for_new_blocks (ix.filter_by_funding s.scripthash) d
      s.funding_step ⟨[], ops, c⟩ [] with ⟨st1, log1, err1⟩
  rw [h1] at hx
  have hlog1 : ∀ y, y ∈ log1 → containsKey s.confirmed y = false := by
    intro y hy
    have := for_new_blocks_log_mem s (ix.filter_by_funding s.scripthash) d
      s.funding_step ⟨[], ops, c⟩ [] y (by rw [h1]; exact hy)
    simpa using this
  cases err1 with
  | some e =>
    dsimp only at hx
    exact hlog1 x hx
  | none =>
    dsimp only at hx
    rcases h2 : s.for_new_blocks
        ((st1.outpoints.flatMap (fun op => ix.filter_by_spending op)).dedup) d
        Status.spending_step st1 log1 with ⟨st2, log2, err2⟩
    rw [h2] at hx
    have hlog2 : x ∈ log2 := by cases err2 <;> simpa using hx
    have := for_new_blocks_log_mem s
      ((st1.outpoints.flatMap (fun op => ix.filter_by_spending op)).dedup) d
      Status.spending_step st1 log1 x (by rw [h2]; exact hlog2)
    rcases this with h | h
    · exact hlog1 x h
    · exact h

/-- C9 amended: a blockhash recorded in `confirmed` is never fetched by
either pass of a sync; but a block first fetched by the funding pass of the
same sync may be fetched again by its spending pass. -/
theorem c9_amended (s : Status) (ix : Index) (d : Daemon) (c : Cache) :
    (s.sync_log ix d c).all (fun bh => !(containsKey s.confirmed bh)) = true := by
  rw [List.all_eq_true]
  intro bh hbh
  have := sync_confirmed_log_mem s ix d c (s.funding_confirmed ix.chain) bh hbh
  simp [this]

/-! ## Towards sync idempotence (C6): outpoint streams of the result map. -/

/-- Funded outpoints recorded in one block's entry map, in list order. -/
def pairOuts (m : List ((Nat × Nat) × Entry)) : List OutPoint :=
  m.flatMap (fun q => make_outpoints q.1.2 q.2.outputs)

/-- Funded outpoints recorded in a whole result map. -/
def resultOuts (r : List (Nat × List ((Nat × Nat) × Entry))) : List OutPoint :=
  r.flatMap (fun p => pairOuts p.2)

/-- Funded outpoints of a flattened update. -/
def updateOuts (u : List (Nat × List TxEntry)) : List OutPoint :=
  u.flatMap (fun p => p.2.flatMap (fun e => make_outpoints e.txid e.outputs))

/-- The stream `funding_confirmed` dedups, as a plain list. -/
def confirmedOuts (m : List (Nat × List TxEntry)) (chain : Chain) : List OutPoint :=
  (m.filter (fun p => (chain.get_block_height p.1).isSome)).flatMap
    (fun p => p.2.flatMap (fun e => make_outpoints e.txid e.outputs))

/-- Positions of entries with recorded funding outputs, in list order. -/
def goodKeys (m : List ((Nat × Nat) × Entry)) : List Nat :=
  (m.filter (fun q => !q.2.outputs.isEmpty)).map (fun q => q.1.1)

lemma funding_confirmed_eq (s : Status) (chain : Chain) :
    s.funding_confirmed chain = extendDedup [] (confirmedOuts s.confirmed chain) :=
  rfl

lemma extendDedup_append {α : Type} [DecidableEq α] (l a b : List α) :
    extendDedup l (a ++ b) = extendDedup (extendDedup l a) b := by
  unfold extendDedup
  exact List.foldl_append insertDedup l a b

lemma pairOuts_append (a b : List ((Nat × Nat) × Entry)) :
    pairOuts (a ++ b) = pairOuts a ++ pairOuts b := by
  simp [pairOuts]

lemma resultOuts_append (a b : List (Nat × List ((Nat × Nat) × Entry))) :
    resultOuts (a ++ b) = resultOuts a ++ resultOuts b := by
  simp [resultOuts]

lemma updateOuts_append (a b : List (Nat × List TxEntry)) :
    updateOuts (a ++ b) = updateOuts a ++ updateOuts b := by
  simp [updateOuts]

lemma confirmedOuts_append (a b : List (Nat × List TxEntry)) (chain : Chain) :
    confirmedOuts (a ++ b) chain = confirmedOuts a chain ++ confirmedOuts b chain := by
  simp [confirmedOuts, List.filter_append]

lemma containsKey_append {κ β : Type} [BEq κ] (m1 m2 : List (κ × β)) (k : κ) :
    containsKey (m1 ++ m2) k = (containsKey m1 k || containsKey m2 k) := by
  simp [containsKey, List.any_append]

lemma upsert_fresh {κ β : Type} [BEq κ] [LawfulBEq κ] (m : List (κ × β)) (k : κ)
    (d : β) (f : β → β) (h : containsKey m k = false) :
    upsert m k d f = m ++ [(k, f d)] := by
  induction m with
  | nil => rfl
  | cons q rest ih =>
    rcases q with ⟨qk, qv⟩
    simp only [containsKey, List.any_cons, Bool.or_eq_false_iff] at h
    have hqk : qk ≠ k := by simpa using h.1
    unfold upsert
    rw [if_neg (by simpa using Ne.symm hqk)]
    rw [ih (by simp [containsKey, h.2])]
    rfl

lemma upsert_append_last {κ β : Type} [BEq κ] [LawfulBEq κ] (r0 : List (κ × β))
    (bh : κ) (m : β) (d : β) (f : β → β) (h : containsKey r0 bh = false) :
    upsert (r0 ++ [(bh, m)]) bh d f = r0 ++ [(bh, f m)] := by
  induction r0 with
  | nil => simp [upsert]
  | cons q rest ih =>
    rcases q with ⟨qk, qv⟩
    simp only [containsKey, List.any_cons, Bool.or_eq_false_iff] at h
    have hqk : qk ≠ bh := by simpa using h.1
    rw [List.cons_append]
    unfold upsert
    rw [if_neg (by simpa using Ne.symm hqk)]
    rw [ih (by simp [containsKey, h.2]), List.cons_append]

lemma pairOuts_cons (q : (Nat × Nat) × Entry) (m : List ((Nat × Nat) × Entry)) :
    pairOuts (q :: m) = make_outpoints q.1.2 q.2.outputs ++ pairOuts m := by
  simp [pairOuts]

lemma resultOuts_cons (p : Nat × List ((Nat × Nat) × Entry))
    (t : List (Nat × List ((Nat × Nat) × Entry))) :
    resultOuts (p :: t) = pairOuts p.2 ++ resultOuts t := by
  simp [resultOuts]

lemma updateOuts_cons (p : Nat × List TxEntry) (t : List (Nat × List TxEntry)) :
    updateOuts (p :: t) =
      p.2.flatMap (fun e => make_outpoints e.txid e.outputs) ++ updateOuts t := by
  simp [updateOuts]

lemma posTxidLe_false_of_lt (a b : Nat × Nat) (h : a.1 < b.1) :
    posTxidLe b a = false := by
  simp only [posTxidLe, Bool.or_eq_false_iff, decide_eq_false_iff_not,
    Bool.and_eq_false_iff, beq_eq_false_iff_ne, ne_eq]
  omega

lemma insertLe_pairOuts_empty (x : (Nat × Nat) × Entry)
    (m : List ((Nat × Nat) × Entry)) (hx : x.2.outputs = []) :
    pairOuts (insertLe (fun a b => posTxidLe a.1 b.1) x m) = pairOuts m := by
  induction m with
  | nil => simp [insertLe, pairOuts, make_outpoints, hx]
  | cons y ys ih =>
    unfold insertLe
    by_cases h : posTxidLe y.1 x.1 = true
    · rw [if_pos h, pairOuts_cons, ih, pairOuts_cons]
    · rw [if_neg h, pairOuts_cons]
      simp [make_outpoints, hx]

lemma insertLe_pairOuts_min (x : (Nat × Nat) × Entry)
    (m : List ((Nat × Nat) × Entry))
    (h : ∀ y ∈ m, y.2.outputs ≠ [] → x.1.1 < y.1.1) :
    pairOuts (insertLe (fun a b => posTxidLe a.1 b.1) x m) =
      make_outpoints x.1.2 x.2.outputs ++ pairOuts m := by
  induction m with
  | nil => simp [insertLe, pairOuts]
  | cons y ys ih =>
    unfold insertLe
    by_cases hle : posTxidLe y.1 x.1 = true
    · have hy : y.2.outputs = [] := by
        by_contra hne
        have hlt := h y (List.mem_cons_self y ys) hne
        have := posTxidLe_false_of_lt x.1 y.1 hlt
        rw [this] at hle
        cases hle
      rw [if_pos hle, pairOuts_cons,
        ih (fun z hz hg => h z (List.mem_cons_of_mem y hz) hg), pairOuts_cons]
      simp [make_outpoints, hy]
    · rw [if_neg hle, pairOuts_cons, pairOuts_cons]

lemma sortPairs_pairOuts (m : List ((Nat × Nat) × Entry))
    (h : (goodKeys m).Pairwise (fun a b => a < b)) :
    pairOuts (sortByLe (fun a b => posTxidLe a.1 b.1) m) = pairOuts m := by
  induction m with
  | nil => rfl
  | cons x t ih =>
    unfold sortByLe
    by_cases hx : x.2.outputs = []
    · have hgk : goodKeys (x :: t) = goodKeys t := by
        simp [goodKeys, List.filter_cons, hx]
      rw [hgk] at h
      rw [insertLe_pairOuts_empty x _ hx, ih h, pairOuts_cons]
      simp [make_outpoints, hx]
    · have hgk : goodKeys (x :: t) = x.1.1 :: goodKeys t := by
        simp [goodKeys, List.filter_cons, hx]
      rw [hgk, List.pairwise_cons] at h
      rw [insertLe_pairOuts_min x _ ?_, ih h.2, pairOuts_cons]
      intro y hy hyg
      have hyt : y ∈ t := (mem_sortByLe _ t y).1 hy
      refine h.1 y.1.1 ?_
      exact List.mem_map.mpr
        ⟨y, List.mem_filter.mpr ⟨hyt, by simp [hyg]⟩, rfl⟩

lemma map_new_flatMap_outs (l : List ((Nat × Nat) × Entry)) :
    (l.map (fun q => TxEntry.new q.1.2 q.2)).flatMap
      (fun e => make_outpoints e.txid e.outputs) = pairOuts l := by
  induction l with
  | nil => rfl
  | cons q t ih =>
    rw [List.map_cons, List.flatMap_cons, pairOuts_cons, ih]
    rfl

lemma flattenResult_outs (r : List (Nat × List ((Nat × Nat) × Entry)))
    (h : ∀ p ∈ r, (goodKeys p.2).Pairwise (fun a b => a < b)) :
    updateOuts (flattenResult r) = resultOuts r := by
  induction r with
  | nil => rfl
  | cons p t ih =>
    unfold flattenResult
    rw [List.map_cons, updateOuts_cons, resultOuts_cons]
    have h1 := map_new_flatMap_outs
      (sortByLe (fun x y => posTxidLe x.1 y.1) p.2)
    have h2 := sortPairs_pairOuts p.2 (h p (List.mem_cons_self p t))
    have ih' := ih (fun q hq => h q (List.mem_cons_of_mem p hq))
    unfold flattenResult at ih'
    rw [h1, h2, ih']

/-- The block's contribution to the result map: nothing, or one entry. -/
def blockDelta (bh : Nat) (m : List ((Nat × Nat) × Entry)) :
    List (Nat × List ((Nat × Nat) × Entry)) :=
  if m.isEmpty then [] else [(bh, m)]

lemma resultOuts_blockDelta (bh : Nat) (m : List ((Nat × Nat) × Entry)) :
    resultOuts (blockDelta bh m) = pairOuts m := by
  unfold blockDelta
  rcases m with _ | ⟨q, t⟩
  · rfl
  · simp [resultOuts]

lemma containsKey_blockDelta (bh : Nat) (m : List ((Nat × Nat) × Entry)) (x : Nat)
    (hx : containsKey (blockDelta bh m) x = true) : x = bh := by
  unfold blockDelta at hx
  rcases m with _ | ⟨q, t⟩
  · cases hx
  · simp [containsKey] at hx
    exact hx.symm

lemma mem_blockDelta (bh : Nat) (m : List ((Nat × Nat) × Entry))
    (p : Nat × List ((Nat × Nat) × Entry)) (hp : p ∈ blockDelta bh m) :
    p = (bh, m) := by
  unfold blockDelta at hp
  rcases m with _ | ⟨q, t⟩
  · cases hp
  · simpa using hp

lemma inner_fresh (m : List ((Nat × Nat) × Entry)) (k : Nat × Nat)
    (h : ∀ q ∈ m, q.1.1 < k.1) : containsKey m k = false := by
  rw [containsKey, List.any_eq_false]
  intro q hq
  have := h q hq
  simp only [beq_iff_eq]
  intro he
  rw [he] at this
  omega

lemma upsert2_fresh (r : List (Nat × List ((Nat × Nat) × Entry))) (bh : Nat)
    (k : Nat × Nat) (f : Entry → Entry) (h : containsKey r bh = false) :
    upsert2 r bh k f = r ++ [(bh, [(k, f ⟨[], []⟩)])] := by
  unfold upsert2
  rw [upsert_fresh r bh [] _ h]
  rfl

lemma upsert2_blockDelta (r0 : List (Nat × List ((Nat × Nat) × Entry))) (bh : Nat)
    (m : List ((Nat × Nat) × Entry)) (k : Nat × Nat) (f : Entry → Entry)
    (hfresh : containsKey r0 bh = false) (hk : ∀ q ∈ m, q.1.1 < k.1) :
    upsert2 (r0 ++ blockDelta bh m) bh k f =
      r0 ++ blockDelta bh (m ++ [(k, f ⟨[], []⟩)]) := by
  rcases m with _ | ⟨q, t⟩
  · rw [show blockDelta bh [] = [] from rfl, List.append_nil,
      upsert2_fresh r0 bh k f hfresh]
    rfl
  · rw [show blockDelta bh (q :: t) = [(bh, q :: t)] from rfl]
    unfold upsert2
    rw [upsert_append_last r0 bh (q :: t) [] _ hfresh]
    rw [upsert_fresh (q :: t) k ⟨[], []⟩ f (inner_fresh (q :: t) k hk)]
    rfl

lemma goodKeys_append (a b : List ((Nat × Nat) × Entry)) :
    goodKeys (a ++ b) = goodKeys a ++ goodKeys b := by
  simp [goodKeys, List.filter_append]

lemma goodKeys_mem_lt (m : List ((Nat × Nat) × Entry)) (pos : Nat)
    (hk : ∀ q ∈ m, q.1.1 < pos) : ∀ a ∈ goodKeys m, a < pos := by
  intro a ha
  rcases List.mem_map.1 ha with ⟨q, hq, rfl⟩
  exact hk q (List.mem_filter.1 hq).1

lemma funding_fold_char (sh : List Nat) (bh : Nat) (txids : List Nat)
    (l : List (Nat × Tx)) (r0 : List (Nat × List ((Nat × Nat) × Entry)))
    (hfresh : containsKey r0 bh = false) :
    ∀ (m : List ((Nat × Nat) × Entry)) (ops : List OutPoint) (cc : Cache),
      (∀ q ∈ m, ∀ pt ∈ l, q.1.1 < pt.1) →
      l.Pairwise (fun a b => a.1 < b.1) →
      (∀ q ∈ m, q.2.outputs ≠ []) →
      (goodKeys m).Pairwise (fun a b => a < b) →
      ∃ (mm : List ((Nat × Nat) × Entry)) (cc2 : Cache),
        l.foldl (funding_tx_step sh bh txids) ⟨r0 ++ blockDelta bh m, ops, cc⟩ =
          ⟨r0 ++ blockDelta bh (m ++ mm), extendDedup ops (pairOuts mm), cc2⟩ ∧
        (∀ q ∈ m ++ mm, q.2.outputs ≠ []) ∧
        (goodKeys (m ++ mm)).Pairwise (fun a b => a < b) := by
  induction l with
  | nil =>
    intro m ops cc hq hl hgood hasc
    exact ⟨[], cc, by simp [extendDedup, pairOuts], by simpa using hgood,
      by simpa using hasc⟩
  | cons pt rest ih =>
    intro m ops cc hq hl hgood hasc
    rw [List.foldl_cons, List.pairwise_cons] at *
    by_cases hfo : (filterOutputsBy sh pt.2).isEmpty = true
    · have hstep : funding_tx_step sh bh txids ⟨r0 ++ blockDelta bh m, ops, cc⟩ pt =
          ⟨r0 ++ blockDelta bh m, ops, cc⟩ := by
        unfold funding_tx_step
        rw [if_pos hfo]
      rw [hstep]
      exact ih m ops cc
        (fun q hq' pt' hpt' => hq q hq' pt' (List.mem_cons_of_mem pt hpt'))
        hl.2 hgood hasc
    · have hk : ∀ q ∈ m, q.1.1 < pt.1 :=
        fun q hqm => hq q hqm pt (List.mem_cons_self pt rest)
    
      have hne : filterOutputsBy sh pt.2 ≠ [] := fun hc => hfo (by rw [hc]; rfl)
      have hstep : funding_tx_step sh bh txids ⟨r0 ++ blockDelta bh m, ops, cc⟩ pt =
          ⟨r0 ++ blockDelta bh
              (m ++ [((pt.1, pt.2.txid), ⟨filterOutputsBy sh pt.2, []⟩)]),
            extendDedup ops (make_outpoints pt.2.txid (filterOutputsBy sh pt.2)),
            (cc.add_tx pt.2.txid pt.2).add_proof bh pt.2.txid (txids, pt.1)⟩ := by
        unfold funding_tx_step
        rw [if_neg hfo]
        dsimp only
        rw [upsert2_blockDelta r0 bh m (pt.1, pt.2.txid) _ hfresh hk]
      rw [hstep]
      have hgk : goodKeys (m ++ [((pt.1, pt.2.txid),
          (⟨filterOutputsBy sh pt.2, []⟩ : Entry))]) = goodKeys m ++ [pt.1] := by
        rw [goodKeys_append]
        simp [goodKeys, List.filter_cons, hne]
      obtain ⟨mm, cc2, hfold, hgood2, hasc2⟩ :=
        ih (m ++ [((pt.1, pt.2.txid), ⟨filterOutputsBy sh pt.2, []⟩)])
          (extendDedup ops (make_outpoints pt.2.txid (filterOutputsBy sh pt.2)))
          ((cc.add_tx pt.2.txid pt.2).add_proof bh pt.2.txid (txids, pt.1))
          (by
            intro q hqm pt' hpt'
            rcases List.mem_append.1 hqm with hqm | hqm
            · exact hq q hqm pt' (List.mem_cons_of_mem pt hpt')
            · have : q = ((pt.1, pt.2.txid), (⟨filterOutputsBy sh pt.2, []⟩ : Entry)) := by
                simpa using hqm
              rw [this]
              exact hl.1 pt' hpt')
          hl.2
          (by
            intro q hqm
            rcases List.mem_append.1 hqm with hqm | hqm
            · exact hgood q hqm
            · have : q = ((pt.1, pt.2.txid), (⟨filterOutputsBy sh pt.2, []⟩ : Entry)) := by
                simpa using hqm
              rw [this]
              exact hne)
          (by
            rw [hgk, List.pairwise_append]
            exact ⟨hasc, List.pairwise_singleton _ _,
              fun a ha b hb => by
                rcases List.mem_singleton.1 hb with rfl
                exact goodKeys_mem_lt m pt.1 hk a ha⟩)
      refine ⟨((pt.1, pt.2.txid), ⟨filterOutputsBy sh pt.2, []⟩) :: mm, cc2, ?_, ?_, ?_⟩
      · rw [hfold, List.append_assoc]
        rw [show ([((pt.1, pt.2.txid), (⟨filterOutputsBy sh pt.2, []⟩ : Entry))] ++ mm) =
          ((pt.1, pt.2.txid), (⟨filterOutputsBy sh pt.2, []⟩ : Entry)) :: mm from rfl]
        rw [pairOuts_cons, extendDedup_append]
      · intro q hqm
        rcases List.mem_append.1 hqm with hqm | hqm
        · exact hgood q hqm
        · rcases List.mem_cons.1 hqm with rfl | hqm
          · exact hne
          · exact hgood2 q (List.mem_append.2 (Or.inr hqm))
      · have : m ++ (((pt.1, pt.2.txid), (⟨filterOutputsBy sh pt.2, []⟩ : Entry)) :: mm) =
            (m ++ [((pt.1, pt.2.txid), ⟨filterOutputsBy sh pt.2, []⟩)]) ++ mm := by
          simp
        rw [this]
        exact hasc2

lemma mem_enumFrom_le {α : Type} (n : Nat) (xs : List α) (x : Nat × α)
    (h : x ∈ List.enumFrom n xs) : n ≤ x.1 := by
  induction xs generalizing n with
  | nil => cases h
  | cons y ys ih =>
    rcases List.mem_cons.1 h with rfl | h
    · exact Nat.le_refl n
    · exact Nat.le_of_succ_le (ih (n + 1) h)

lemma enumFrom_pairwise {α : Type} (n : Nat) (xs : List α) :
    (List.enumFrom n xs).Pairwise (fun a b => a.1 < b.1) := by
  induction xs generalizing n with
  | nil => simp
  | cons y ys ih =>
    rw [List.enumFrom_cons, List.pairwise_cons]
    exact ⟨fun b hb => Nat.lt_of_lt_of_le (Nat.lt_succ_self n)
      (mem_enumFrom_le (n + 1) ys b hb), ih (n + 1)⟩

lemma enum_pairwise {α : Type} (xs : List α) :
    (List.enum xs).Pairwise (fun a b => a.1 < b.1) :=
  enumFrom_pairwise 0 xs

lemma funding_step_char (s : Status) (bh : Nat) (b : Block) (st : SCState)
    (hfresh : containsKey st.result bh = false) :
    ∃ (m : List ((Nat × Nat) × Entry)) (cc2 : Cache),
      s.funding_step bh b st =
        ⟨st.result ++ blockDelta bh m, extendDedup st.outpoints (pairOuts m), cc2⟩ ∧
      (∀ q ∈ m, q.2.outputs ≠ []) ∧
      (goodKeys m).Pairwise (fun a b => a < b) := by
  obtain ⟨mm, cc2, hfold, hgood, hasc⟩ :=
    funding_fold_char s.scripthash bh (b.txdata.map (fun tx => tx.txid))
      b.txdata.enum st.result hfresh [] st.outpoints st.cache
      (by intro q hq; cases hq) (enum_pairwise b.txdata)
      (by intro q hq; cases hq) (by simp [goodKeys])
  refine ⟨mm, cc2, ?_, by simpa using hgood, by simpa using hasc⟩
  unfold Status.funding_step
  rw [show blockDelta bh [] = [] from rfl, List.append_nil] at hfold
  rw [show (⟨st.result, st.outpoints, st.cache⟩ : SCState) = st from rfl] at hfold
  rw [hfold]
  simp

lemma funding_pass_char (s : Status) (d : Daemon) (bs : List Nat)
    (st : SCState) (log : List Nat) (st2 : SCState) (log2 : List Nat)
    (hrun : d.for_blocks bs s.funding_step st log = (st2, log2, none))
    (hnd : bs.Nodup)
    (hdisj : ∀ bh ∈ bs, containsKey st.result bh = false) :
    ∃ delta,
      st2.result = st.result ++ delta ∧
      st2.outpoints = extendDedup st.outpoints (resultOuts delta) ∧
      (∀ p ∈ delta, p.1 ∈ bs) ∧
      (∀ p ∈ delta, (goodKeys p.2).Pairwise (fun a b => a < b)) ∧
      (∀ p ∈ delta, ∀ q ∈ p.2, q.2.outputs ≠ []) ∧
      (delta.map (fun p => p.1)).Nodup := by
  induction bs generalizing st log with
  | nil =>
    unfold Daemon.for_blocks at hrun
    cases hrun
    exact ⟨[], by simp, by simp [resultOuts, extendDedup], by simp, by simp,
      by simp, by simp⟩
  | cons bh rest ih =>
    unfold Daemon.for_blocks at hrun
    rcases hf : d.fetch bh with e | b <;> rw [hf] at hrun
    · cases hrun
    · rw [List.nodup_cons] at hnd
      dsimp only at hrun
      obtain ⟨m, cc2, hstep, hgood, hasc⟩ :=
        funding_step_char s bh b st (hdisj bh (List.mem_cons_self bh rest))
      rw [hstep] at hrun
      obtain ⟨delta2, hres, hops, hmem, hasc2, hgood2, hnd2⟩ :=
        ih _ _ hrun hnd.2 (by
          intro bh2 hbh2
          dsimp only
          rw [containsKey_append, Bool.or_eq_false_iff]
          refine ⟨hdisj bh2 (List.mem_cons_of_mem bh hbh2), ?_⟩
          by_contra hc
          rw [Bool.not_eq_false] at hc
          exact hnd.1 (containsKey_blockDelta bh m bh2 hc ▸ hbh2))
      refine ⟨blockDelta bh m ++ delta2, ?_, ?_, ?_, ?_, ?_, ?_⟩
      · rw [hres]
        dsimp only
        rw [List.append_assoc]
      · rw [hops]
        dsimp only
        rw [resultOuts_append, resultOuts_blockDelta, extendDedup_append]
      · intro p hp
        rcases List.mem_append.1 hp with hp | hp
        · rw [mem_blockDelta bh m p hp]
          exact List.mem_cons_self bh rest
        · exact List.mem_cons_of_mem bh (hmem p hp)
      · intro p hp
        rcases List.mem_append.1 hp with hp | hp
        · rw [mem_blockDelta bh m p hp]
          exact hasc
        · exact hasc2 p hp
      · intro p hp
        rcases List.mem_append.1 hp with hp | hp
        · rw [mem_blockDelta bh m p hp]
          exact hgood
        · exact hgood2 p hp
      · rw [List.map_append, List.nodup_append]
        refine ⟨?_, hnd2, ?_⟩
        · unfold blockDelta
          rcases m with _ | ⟨q, t⟩ <;> simp
        · intro x hx1 hx2
          rcases List.mem_map.1 hx1 with ⟨p, hp, rfl⟩
          rcases List.mem_map.1 hx2 with ⟨p2, hp2, he⟩
          rw [mem_blockDelta bh m p hp] at he
          have : p2.1 = bh := he
          exact hnd.1 (this ▸ hmem p2 hp2)

lemma goodKeys_cons (q : (Nat × Nat) × Entry) (m : List ((Nat × Nat) × Entry)) :
    goodKeys (q :: m) =
      if q.2.outputs.isEmpty then goodKeys m else q.1.1 :: goodKeys m := by
  by_cases h : q.2.outputs.isEmpty = true <;> simp [goodKeys, List.filter_cons, h]

lemma pairOuts_upsert_spent (m : List ((Nat × Nat) × Entry)) (k : Nat × Nat)
    (so : List OutPoint) :
    pairOuts (upsert m k ⟨[], []⟩ (fun e => { e with spent := so })) = pairOuts m := by
  induction m with
  | nil => simp [upsert, pairOuts, make_outpoints]
  | cons q rest ih =>
    rcases q with ⟨qk, qv⟩
    unfold upsert
    by_cases h : (k == qk) = true
    · rw [if_pos h, pairOuts_cons, pairOuts_cons]
    · rw [if_neg h, pairOuts_cons, pairOuts_cons, ih]

lemma goodKeys_upsert_spent (m : List ((Nat × Nat) × Entry)) (k : Nat × Nat)
    (so : List OutPoint) :
    goodKeys (upsert m k ⟨[], []⟩ (fun e => { e with spent := so })) = goodKeys m := by
  induction m with
  | nil => simp [upsert, goodKeys]
  | cons q rest ih =>
    rcases q with ⟨qk, qv⟩
    unfold upsert
    by_cases h : (k == qk) = true
    · rw [if_pos h, goodKeys_cons, goodKeys_cons]
    · rw [if_neg h, goodKeys_cons, goodKeys_cons, ih]

lemma mem_keys_upsert {κ β : Type} [BEq κ] [LawfulBEq κ] (m : List (κ × β))
    (k : κ) (d : β) (f : β → β) (x : κ)
    (hx : x ∈ (upsert m k d f).map (fun p => p.1)) :
    x ∈ m.map (fun p => p.1) ∨ x = k := by
  induction m with
  | nil =>
    simp [upsert] at hx
    exact Or.inr hx
  | cons q rest ih =>
    rcases q with ⟨qk, qv⟩
    unfold upsert at hx
    by_cases h : (k == qk) = true
    · rw [if_pos h] at hx
      rw [List.map_cons] at hx ⊢
      exact Or.inl hx
    · rw [if_neg h] at hx
      rw [List.map_cons, List.mem_cons] at hx
      rw [List.map_cons, List.mem_cons]
      rcases hx with rfl | hx
      · exact Or.inl (Or.inl rfl)
      · rcases ih hx with h' | h'
        · exact Or.inl (Or.inr h')
        · exact Or.inr h'

lemma keys_nodup_upsert {κ β : Type} [BEq κ] [LawfulBEq κ] (m : List (κ × β))
    (k : κ) (d : β) (f : β → β) (h : (m.map (fun p => p.1)).Nodup) :
    ((upsert m k d f).map (fun p => p.1)).Nodup := by
  induction m with
  | nil => simp [upsert]
  | cons q rest ih =>
    rcases q with ⟨qk, qv⟩
    rw [List.map_cons, List.nodup_cons] at h
    unfold upsert
    by_cases hk : (k == qk) = true
    · rw [if_pos hk, List.map_cons, List.nodup_cons]
      exact h
    · rw [if_neg hk, List.map_cons, List.nodup_cons]
      refine ⟨fun hc => ?_, ih h.2⟩
      rcases mem_keys_upsert rest k d f qk hc with h' | h'
      · exact h.1 h'
      · rw [h'] at hk
        simp at hk

lemma containsKey_iff_mem_keys {κ β : Type} [BEq κ] [LawfulBEq κ]
    (m : List (κ × β)) (x : κ) :
    containsKey m x = true ↔ x ∈ m.map (fun p => p.1) := by
  rw [containsKey, List.any_eq_true]
  constructor
  · rintro ⟨p, hp, hbeq⟩
    exact List.mem_map.2 ⟨p, hp, beq_iff_eq.1 hbeq⟩
  · intro hx
    rcases List.mem_map.1 hx with ⟨p, hp, rfl⟩
    exact ⟨p, hp, beq_iff_eq.2 rfl⟩

lemma containsKey_upsert2 (r : List (Nat × List ((Nat × Nat) × Entry))) (bh : Nat)
    (k : Nat × Nat) (f : Entry → Entry) (x : Nat)
    (hx : containsKey (upsert2 r bh k f) x = true) :
    containsKey r x = true ∨ x = bh := by
  rw [containsKey_iff_mem_keys] at hx
  rcases mem_keys_upsert r bh [] _ x hx with h | h
  · exact Or.inl ((containsKey_iff_mem_keys r x).2 h)
  · exact Or.inr h

lemma keys_nodup_upsert2 (r : List (Nat × List ((Nat × Nat) × Entry))) (bh : Nat)
    (k : Nat × Nat) (f : Entry → Entry)
    (h : (r.map (fun p => p.1)).Nodup) :
    ((upsert2 r bh k f).map (fun p => p.1)).Nodup :=
  keys_nodup_upsert r bh [] _ h

lemma resultOuts_upsert2_spent (r : List (Nat × List ((Nat × Nat) × Entry)))
    (bh : Nat) (k : Nat × Nat) (so : List OutPoint) :
    resultOuts (upsert2 r bh k (fun e => { e with spent := so })) = resultOuts r := by
  unfold upsert2
  induction r with
  | nil => simp [upsert, resultOuts, pairOuts, make_outpoints]
  | cons q rest ih =>
    rcases q with ⟨qk, mv⟩
    unfold upsert
    by_cases h : (bh == qk) = true
    · rw [if_pos h, resultOuts_cons, resultOuts_cons]
      dsimp only
      rw [pairOuts_upsert_spent]
    · rw [if_neg h, resultOuts_cons, resultOuts_cons, ih]

lemma goodKeys_upsert2_spent_mem (r : List (Nat × List ((Nat × Nat) × Entry)))
    (bh : Nat) (k : Nat × Nat) (so : List OutPoint)
    (p : Nat × List ((Nat × Nat) × Entry))
    (hp : p ∈ upsert2 r bh k (fun e => { e with spent := so })) :
    (∃ q ∈ r, goodKeys p.2 = goodKeys q.2) ∨ goodKeys p.2 = [] := by
  unfold upsert2 at hp
  induction r with
  | nil =>
    simp [upsert] at hp
    right
    rw [hp]
    simp [goodKeys]
  | cons q rest ih =>
    rcases q with ⟨qk, mv⟩
    unfold upsert at hp
    by_cases h : (bh == qk) = true
    · rw [if_pos h] at hp
      rcases List.mem_cons.1 hp with hp1 | hp
      · exact Or.inl ⟨(qk, mv), List.mem_cons_self _ _, by
          rw [hp1]
          exact goodKeys_upsert_spent mv k so⟩
      · exact Or.inl ⟨p, List.mem_cons_of_mem _ hp, rfl⟩
    · rw [if_neg h] at hp
      rcases List.mem_cons.1 hp with hp1 | hp
      · exact Or.inl ⟨(qk, mv), List.mem_cons_self _ _, by rw [hp1]⟩
      · rcases ih hp with ⟨q2, hq2, he⟩ | he
        · exact Or.inl ⟨q2, List.mem_cons_of_mem _ hq2, he⟩
        · exact Or.inr he

lemma spending_fold_char (bh : Nat) (txids : List Nat) (l : List (Nat × Tx)) :
    ∀ (st : SCState),
      (l.foldl (spending_tx_step bh txids) st).outpoints = st.outpoints ∧
      resultOuts (l.foldl (spending_tx_step bh txids) st).result =
        resultOuts st.result ∧
      (∀ p ∈ (l.foldl (spending_tx_step bh txids) st).result,
          (∃ q ∈ st.result, goodKeys p.2 = goodKeys q.2) ∨ goodKeys p.2 = []) ∧
      (∀ x, containsKey (l.foldl (spending_tx_step bh txids) st).result x = true →
          containsKey st.result x = true ∨ x = bh) ∧
      ((st.result.map (fun p => p.1)).Nodup →
        ((l.foldl (spending_tx_step bh txids) st).result.map
          (fun p => p.1)).Nodup) := by
  induction l with
  | nil =>
    intro st
    exact ⟨rfl, rfl, fun p hp => Or.inl ⟨p, hp, rfl⟩, fun x hx => Or.inl hx, id⟩
  | cons pt rest ih =>
    intro st
    rw [List.foldl_cons]
    by_cases hso : (Status.filter_inputs pt.2 st.outpoints).isEmpty = true
    · have hstep : spending_tx_step bh txids st pt = st := by
        unfold spending_tx_step
        rw [if_pos hso]
      rw [hstep]
      exact ih st
    · have hstep : spending_tx_step bh txids st pt =
          ⟨upsert2 st.result bh (pt.1, pt.2.txid)
              (fun e => { e with spent := Status.filter_inputs pt.2 st.outpoints }),
            st.outpoints,
            (st.cache.add_tx pt.2.txid pt.2).add_proof bh pt.2.txid (txids, pt.1)⟩ := by
        unfold spending_tx_step
        rw [if_neg hso]
      obtain ⟨h1, h2, h3, h4, h5⟩ := ih (spending_tx_step bh txids st pt)
      refine ⟨?_, ?_, ?_, ?_, ?_⟩
      · rw [h1, hstep]
      · rw [h2, hstep]
        dsimp only
        exact resultOuts_upsert2_spent st.result bh (pt.1, pt.2.txid) _
      · intro p hp
        rcases h3 p hp with ⟨q, hq, he⟩ | he
        · rw [hstep] at hq
          dsimp only at hq
          rcases goodKeys_upsert2_spent_mem st.result bh (pt.1, pt.2.txid) _ q hq with
            ⟨q2, hq2, he2⟩ | he2
          · exact Or.inl ⟨q2, hq2, he.trans he2⟩
          · exact Or.inr (he.trans he2)
        · exact Or.inr he
      · intro x hx
        rcases h4 x hx with hx' | hx'
        · rw [hstep] at hx'
          dsimp only at hx'
          exact containsKey_upsert2 st.result bh (pt.1, pt.2.txid) _ x hx'
        · exact Or.inr hx'
      · intro hnd
        refine h5 ?_
        rw [hstep]
        dsimp only
        exact keys_nodup_upsert2 st.result bh (pt.1, pt.2.txid) _ hnd

lemma spending_pass_char (s : Status) (d : Daemon) (bs : List Nat)
    (st : SCState) (log : List Nat) (st2 : SCState) (log2 : List Nat)
    (hrun : d.for_blocks bs Status.spending_step st log = (st2, log2, none)) :
    st2.outpoints = st.outpoints ∧
    resultOuts st2.result = resultOuts st.result ∧
    (∀ p ∈ st2.result,
        (∃ q ∈ st.result, goodKeys p.2 = goodKeys q.2) ∨ goodKeys p.2 = []) ∧
    (∀ x, containsKey st2.result x = true →
        containsKey st.result x = true ∨ x ∈ bs) ∧
    ((st.result.map (fun p => p.1)).Nodup →
      (st2.result.map (fun p => p.1)).Nodup) := by
  induction bs generalizing st log with
  | nil =>
    unfold Daemon.for_blocks at hrun
    cases hrun
    exact ⟨rfl, rfl, fun p hp => Or.inl ⟨p, hp, rfl⟩, fun x hx => Or.inl hx, id⟩
  | cons bh rest ih =>
    unfold Daemon.for_blocks at hrun
    rcases hf : d.fetch bh with e | b <;> rw [hf] at hrun
    · cases hrun
    · dsimp only at hrun
      obtain ⟨k1, k2, k3, k4, k5⟩ :=
        spending_fold_char bh (b.txdata.map (fun tx => tx.txid)) b.txdata.enum st
      obtain ⟨h1, h2, h3, h4, h5⟩ := ih (Status.spending_step bh b st) (log ++ [bh]) hrun
      have hsame : Status.spending_step bh b st =
          b.txdata.enum.foldl
            (spending_tx_step bh (b.txdata.map (fun tx => tx.txid))) st := rfl
      rw [hsame] at h1 h2 h3 h4 h5
      refine ⟨h1.trans k1, h2.trans k2, ?_, ?_, fun hn => h5 (k5 hn)⟩
      · intro p hp
        rcases h3 p hp with ⟨q, hq, he⟩ | he
        · rcases k3 q hq with ⟨q2, hq2, he2⟩ | he2
          · exact Or.inl ⟨q2, hq2, he.trans he2⟩
          · exact Or.inr (he.trans he2)
        · exact Or.inr he
      · intro x hx
        rcases h4 x hx with hx' | hx'
        · rcases k4 x hx' with h' | h'
          · exact Or.inl h'
          · exact Or.inr (h' ▸ List.mem_cons_self bh rest)
        · exact Or.inr (List.mem_cons_of_mem bh hx')

lemma flattenResult_keys (r : List (Nat × List ((Nat × Nat) × Entry))) :
    (flattenResult r).map (fun p => p.1) = r.map (fun p => p.1) := by
  simp [flattenResult]

lemma mem_flattenResult (r : List (Nat × List ((Nat × Nat) × Entry)))
    (p : Nat × List TxEntry) (hp : p ∈ flattenResult r) :
    ∃ p0 ∈ r, p.1 = p0.1 := by
  unfold flattenResult at hp
  rcases List.mem_map.1 hp with ⟨p0, hp0, rfl⟩
  exact ⟨p0, hp0, rfl⟩

lemma mem_filter_by_funding_isSome (ix : Index) (sh : List Nat) (bh : Nat)
    (h : bh ∈ ix.filter_by_funding sh) :
    (ix.chain.get_block_height bh).isSome = true := by
  unfold Index.filter_by_funding at h
  exact (List.mem_filter.1 (List.mem_dedup.1 h)).2

lemma mem_filter_by_spending_isSome (ix : Index) (op : OutPoint) (bh : Nat)
    (h : bh ∈ ix.filter_by_spending op) :
    (ix.chain.get_block_height bh).isSome = true := by
  unfold Index.filter_by_spending at h
  exact (List.mem_filter.1 (List.mem_dedup.1 h)).2

lemma mem_new_blocks_mem (s : Status) (bs : List Nat) (x : Nat)
    (hx : x ∈ new_blocks s bs) : x ∈ bs :=
  (List.mem_filter.1 hx).1

lemma new_blocks_nodup (s : Status) (bs : List Nat) (h : bs.Nodup) :
    (new_blocks s bs).Nodup :=
  h.filter _

lemma filter_by_funding_nodup (ix : Index) (sh : List Nat) :
    (ix.filter_by_funding sh).Nodup :=
  List.nodup_dedup _

/-- All structure of a successful `sync_confirmed` needed for idempotence:
the returned outpoint set extends the seed with exactly the update's funded
outpoints, and the update's keys are fresh, distinct and on the chain. -/
lemma sync_confirmed_char (s : Status) (ix : Index) (d : Daemon) (c : Cache)
    (ops0 : List OutPoint) (update : List (Nat × List TxEntry)) (c1 : Cache)
    (ops1 : List OutPoint) (log : List Nat)
    (h : s.sync_confirmed ix d c ops0 = (.ok update, c1, ops1, log)) :
    ops1 = extendDedup ops0 (updateOuts update) ∧
    (∀ p ∈ update, containsKey s.confirmed p.1 = false) ∧
    ((update.map (fun p => p.1)).Nodup) ∧
    (∀ p ∈ update, (ix.chain.get_block_height p.1).isSome = true) := by
  simp only [Status.sync_confirmed] at h
  rcases h1 : s.for_new_blocks (ix.filter_by_funding s.scripthash) d
      s.funding_step ⟨[], ops0, c⟩ [] with ⟨st1, log1, err1⟩
  rw [h1] at h
  cases err1 with
  | some e => dsimp only at h; cases h
  | none =>
    dsimp only at h
    rcases h2 : s.for_new_blocks
        ((st1.outpoints.flatMap (fun op => ix.filter_by_spending op)).dedup) d
        Status.spending_step st1 log1 with ⟨st2, log2, err2⟩
    rw [h2] at h
    cases err2 with
    | some e => dsimp only at h; cases h
    | none =>
      dsimp only at h
      simp only [Prod.mk.injEq, Except.ok.injEq] at h
      obtain ⟨hu, hc1, hops1, hlog⟩ := h
      subst hu
      subst hops1
      obtain ⟨delta, hres, hops, hmem, hasc, hgoodE, hnd⟩ :=
        funding_pass_char s d (new_blocks s (ix.filter_by_funding s.scripthash))
          ⟨[], ops0, c⟩ [] st1 log1 h1
          (new_blocks_nodup s _ (filter_by_funding_nodup ix s.scripthash))
          (by intro bh _; rfl)
      obtain ⟨k1, k2, k3, k4, k5⟩ :=
        spending_pass_char s d
          (new_blocks s
            ((st1.outpoints.flatMap (fun op => ix.filter_by_spending op)).dedup))
          st1 log1 st2 log2 h2
      rw [List.nil_append] at hres
      have hdeltaKeys : ∀ x, containsKey delta x = true →
          x ∈ new_blocks s (ix.filter_by_funding s.scripthash) := by
        intro x hx
        rw [containsKey_iff_mem_keys] at hx
        rcases List.mem_map.1 hx with ⟨p, hp, rfl⟩
        exact hmem p hp
      have hst2keys : ∀ x, containsKey st2.result x = true →
          x ∈ new_blocks s (ix.filter_by_funding s.scripthash) ∨
          x ∈ new_blocks s
            ((st1.outpoints.flatMap (fun op => ix.filter_by_spending op)).dedup) := by
        intro x hx
        rcases k4 x hx with hx' | hx'
        · exact Or.inl (hdeltaKeys x (hres ▸ hx'))
        · exact Or.inr hx'
      refine ⟨?_, ?_, ?_, ?_⟩
      · rw [k1, hops]
        have hgk : ∀ p ∈ st2.result, (goodKeys p.2).Pairwise (fun a b => a < b) := by
          intro p hp
          rcases k3 p hp with ⟨q, hq, he⟩ | he
          · rw [he]
            exact hasc q (hres ▸ hq)
          · rw [he]
            exact List.Pairwise.nil
        rw [flattenResult_outs st2.result hgk, k2, hres]
      · intro p hp
        rcases mem_flattenResult st2.result p hp with ⟨p0, hp0, he⟩
        have : containsKey st2.result p0.1 = true := by
          rw [containsKey_iff_mem_keys]
          exact List.mem_map.2 ⟨p0, hp0, rfl⟩
        rw [he]
        rcases hst2keys p0.1 this with h' | h' <;>
          exact mem_new_blocks s _ p0.1 h'
      · rw [flattenResult_keys]
        exact k5 (hres ▸ hnd)
      · intro p hp
        rcases mem_flattenResult st2.result p hp with ⟨p0, hp0, he⟩
        have : containsKey st2.result p0.1 = true := by
          rw [containsKey_iff_mem_keys]
          exact List.mem_map.2 ⟨p0, hp0, rfl⟩
        rw [he]
        rcases hst2keys p0.1 this with h' | h'
        · exact mem_filter_by_funding_isSome ix s.scripthash p0.1
            (mem_new_blocks_mem s _ p0.1 h')
        · have := mem_new_blocks_mem s _ p0.1 h'
          rcases List.mem_flatMap.1 (List.mem_dedup.1 this) with ⟨op, -, hop⟩
          exact mem_filter_by_spending_isSome ix op p0.1 hop

lemma mpfold1_proj (sh : List Nat) (es : List MEntry) :
    ∀ (r : List (Nat × Entry)) (ops : List OutPoint) (c c2 : Cache),
      (es.foldl (mempool_funding_step sh) ⟨r, ops, c⟩).result =
        (es.foldl (mempool_funding_step sh) ⟨r, ops, c2⟩).result ∧
      (es.foldl (mempool_funding_step sh) ⟨r, ops, c⟩).outpoints =
        (es.foldl (mempool_funding_step sh) ⟨r, ops, c2⟩).outpoints := by
  induction es with
  | nil => intro r ops c c2; exact ⟨rfl, rfl⟩
  | cons e t ih =>
    intro r ops c c2
    rw [List.foldl_cons, List.foldl_cons]
    have h1 : mempool_funding_step sh ⟨r, ops, c⟩ e =
        ⟨upsert r e.txid ⟨[], []⟩
            (fun en => { en with outputs := filterOutputsBy sh e.tx }),
          extendDedup ops (make_outpoints e.txid (filterOutputsBy sh e.tx)),
          c.add_tx e.txid e.tx⟩ := rfl
    have h2 : mempool_funding_step sh ⟨r, ops, c2⟩ e =
        ⟨upsert r e.txid ⟨[], []⟩
            (fun en => { en with outputs := filterOutputsBy sh e.tx }),
          extendDedup ops (make_outpoints e.txid (filterOutputsBy sh e.tx)),
          c2.add_tx e.txid e.tx⟩ := rfl
    rw [h1, h2]
    exact ih _ _ _ _

lemma mpfold2_result (ops1 : List OutPoint) (es : List MEntry) :
    ∀ (r : List (Nat × Entry)) (ops : List OutPoint) (c c2 : Cache),
      (es.foldl (mempool_spending_step ops1) ⟨r, ops, c⟩).result =
        (es.foldl (mempool_spending_step ops1) ⟨r, ops, c2⟩).result := by
  induction es with
  | nil => intro r ops c c2; rfl
  | cons e t ih =>
    intro r ops c c2
    rw [List.foldl_cons, List.foldl_cons]
    have h1 : mempool_spending_step ops1 ⟨r, ops, c⟩ e =
        ⟨upsert r e.txid ⟨[], []⟩
            (fun en => { en with spent := Status.filter_inputs e.tx ops1 }),
          ops, c.add_tx e.txid e.tx⟩ := rfl
    have h2 : mempool_spending_step ops1 ⟨r, ops, c2⟩ e =
        ⟨upsert r e.txid ⟨[], []⟩
            (fun en => { en with spent := Status.filter_inputs e.tx ops1 }),
          ops, c2.add_tx e.txid e.tx⟩ := rfl
    rw [h1, h2]
    exact ih _ _ _ _

lemma mpstate_eta (st : MPState) : st = ⟨st.result, st.outpoints, st.cache⟩ := rfl

/-- The transaction-entry list `sync_mempool` produces depends only on the
script hash, the mempool and the outpoint set — not on the cache or the other
Status fields. -/
lemma sync_mempool_fst_eq (sA sB : Status) (hsh : sA.scripthash = sB.scripthash)
    (mp : Mempool) (cA cB : Cache) (ops : List OutPoint) :
    (sA.sync_mempool mp cA ops).1 = (sB.sync_mempool mp cB ops).1 := by
  unfold Status.sync_mempool
  rw [hsh]
  obtain ⟨hr, ho⟩ :=
    mpfold1_proj sB.scripthash (mp.filter_by_funding sB.scripthash) [] ops cA cB
  dsimp only
  rw [mpstate_eta ((mp.filter_by_funding sB.scripthash).foldl
      (mempool_funding_step sB.scripthash) ⟨[], ops, cA⟩)]
  rw [hr, ho]
  rw [mpfold2_result
    ((mp.filter_by_funding sB.scripthash).foldl (mempool_funding_step sB.scripthash)
        ⟨[], ops, cB⟩).outpoints _ _ _
    (((mp.filter_by_funding sB.scripthash).foldl (mempool_funding_step sB.scripthash)
        ⟨[], ops, cA⟩).cache)
    (((mp.filter_by_funding sB.scripthash).foldl (mempool_funding_step sB.scripthash)
        ⟨[], ops, cB⟩).cache)]

lemma mapInsert_fresh {β : Type} (m : List (Nat × β)) (k : Nat) (v : β)
    (h : containsKey m k = false) : mapInsert m k v = m ++ [(k, v)] := by
  unfold mapInsert
  rw [h]
  rfl

lemma extendMap_disjoint {β : Type} (upd : List (Nat × β)) :
    ∀ (m : List (Nat × β)),
      (∀ p ∈ upd, containsKey m p.1 = false) →
      (upd.map (fun p => p.1)).Nodup →
      extendMap m upd = m ++ upd := by
  induction upd with
  | nil => intro m _ _; simp [extendMap]
  | cons p t ih =>
    intro m hdisj hnd
    rcases p with ⟨k, v⟩
    rw [List.map_cons, List.nodup_cons] at hnd
    unfold extendMap
    rw [List.foldl_cons]
    dsimp only
    rw [mapInsert_fresh m k v (hdisj (k, v) (List.mem_cons_self _ _))]
    have := ih (m ++ [(k, v)])
      (by
        intro q hq
        rw [containsKey_append, Bool.or_eq_false_iff]
        refine ⟨hdisj q (List.mem_cons_of_mem _ hq), ?_⟩
        have hqk : q.1 ≠ k := fun he => hnd.1 (he ▸ List.mem_map.2 ⟨q, hq, rfl⟩)
        simp [containsKey, hqk]
        intro he
        exact absurd he.symm hqk)
      hnd.2
    unfold extendMap at this
    rw [this, List.append_assoc]
    rfl

lemma confirmedOuts_all_onchain (u : List (Nat × List TxEntry)) (chain : Chain)
    (h : ∀ p ∈ u, (chain.get_block_height p.1).isSome = true) :
    confirmedOuts u chain = updateOuts u := by
  unfold confirmedOuts updateOuts
  rw [List.filter_eq_self.2 h]

lemma funding_confirmed_congr (sA sB : Status) (chain : Chain)
    (h : sA.confirmed = sB.confirmed) :
    sA.funding_confirmed chain = sB.funding_confirmed chain := by
  unfold Status.funding_confirmed
  rw [h]

lemma compute_status_hash_congr (sA sB : Status) (chain : Chain) (mp : Mempool)
    (hc : sA.confirmed = sB.confirmed) (hm : sA.mempool = sB.mempool) :
    sA.compute_status_hash chain mp = sB.compute_status_hash chain mp := by
  unfold Status.compute_status_hash Status.get_confirmed Status.get_mempool
  rw [hc, hm]

lemma sync_skip (s : Status) (ix : Index) (mp : Mempool) (d : Daemon) (c : Cache)
    (h : s.tip = ix.chain.tip) :
    s.sync ix mp d c = Status.sync_finish s ix mp c (s.funding_confirmed ix.chain) := by
  unfold Status.sync
  rw [if_neg (fun hne => hne h)]

/-- C6: after a successful `sync`, syncing again with the same chain and
mempool succeeds, leaves `statushash` unchanged and leaves the `confirmed`
and `mempool` collections structurally equal; and whenever the stored tip
already equals the chain's tip, `sync` is exactly the mempool-only tail —
the confirmed-sync phase (and any daemon access) is skipped. -/
theorem c6_sync_idempotent (s : Status) (ix : Index) (mp : Mempool) (d : Daemon)
    (c : Cache) (s1 : Status) (c1 : Cache) (c2 : Cache)
    (hrun : s.sync ix mp d c = ⟨s1, c1, none⟩) :
    (s1.sync ix mp d c2).err = none ∧
    (s1.sync ix mp d c2).status.statushash = s1.statushash ∧
    (s1.sync ix mp d c2).status.confirmed = s1.confirmed ∧
    (s1.sync ix mp d c2).status.mempool = s1.mempool ∧
    (s.tip = ix.chain.tip →
      s.sync ix mp d c =
        Status.sync_finish s ix mp c (s.funding_confirmed ix.chain)) := by
  have key : ∃ (sMid : Status) (cMid : Cache) (opsUsed : List OutPoint),
      s1 = (Status.sync_finish sMid ix mp cMid opsUsed).status ∧
      s1.scripthash = sMid.scripthash ∧
      sMid.tip = ix.chain.tip ∧
      s1.funding_confirmed ix.chain = opsUsed ∧
      s1.mempool = (sMid.sync_mempool mp cMid opsUsed).1 ∧
      s1.statushash = ({ sMid with
        mempool := (sMid.sync_mempool mp cMid opsUsed).1 }).compute_status_hash
          ix.chain mp ∧
      s1.confirmed = sMid.confirmed := by
    unfold Status.sync at hrun
    by_cases htip : s.tip ≠ ix.chain.tip
    · rw [if_pos htip] at hrun
      rcases hsc : s.sync_confirmed ix d c (s.funding_confirmed ix.chain) with
        ⟨res, cX, opsX, logX⟩
      rw [hsc] at hrun
      cases res with
      | error e =>
        have := congrArg SyncResult.err hrun
        simp at this
      | ok update =>
        dsimp only at hrun
        obtain ⟨hops, hdisj, hnd, honchain⟩ :=
          sync_confirmed_char s ix d c _ update cX opsX logX hsc
        have hs1 : s1 = (Status.sync_finish
            (Status.mk s.scripthash ix.chain.tip s.statushash
              (extendMap s.confirmed update) s.mempool) ix mp cX opsX).status :=
          (congrArg SyncResult.status hrun).symm
        refine ⟨_, cX, opsX, hs1, by rw [hs1]; rfl, rfl, ?_, by rw [hs1]; rfl,
          by rw [hs1]; rfl, by rw [hs1]; rfl⟩
        rw [hs1]
        have hext : extendMap s.confirmed update = s.confirmed ++ update :=
          extendMap_disjoint update s.confirmed hdisj hnd
        have hfc : (Status.sync_finish
            (Status.mk s.scripthash ix.chain.tip s.statushash
              (extendMap s.confirmed update) s.mempool) ix mp
              cX opsX).status.funding_confirmed ix.chain =
            extendDedup [] (confirmedOuts (s.confirmed ++ update) ix.chain) := by
          rw [funding_confirmed_eq]
          rw [show (Status.sync_finish
            (Status.mk s.scripthash ix.chain.tip s.statushash
              (extendMap s.confirmed update) s.mempool) ix mp
              cX opsX).status.confirmed =
            extendMap s.confirmed update from rfl]
          rw [hext]
        rw [hfc, confirmedOuts_append, extendDedup_append]
        rw [confirmedOuts_all_onchain update ix.chain honchain]
        rw [hops]
        rfl
    · rw [if_neg htip] at hrun
      have hs1 : s1 = (Status.sync_finish s ix mp c
          (s.funding_confirmed ix.chain)).status :=
        (congrArg SyncResult.status hrun).symm
      refine ⟨s, c, s.funding_confirmed ix.chain, hs1, by rw [hs1]; rfl,
        not_not.1 htip, ?_, by rw [hs1]; rfl, by rw [hs1]; rfl, by rw [hs1]; rfl⟩
      rw [hs1]
      exact funding_confirmed_congr _ s ix.chain rfl
  obtain ⟨sMid, cMid, opsUsed, hs1, hsh, htipMid, hops1, hmem1, hstat1, hconf1⟩ := key
  have hmemEq : (s1.sync_mempool mp c2 (s1.funding_confirmed ix.chain)).1 =
      s1.mempool := by
    rw [hops1, sync_mempool_fst_eq s1 sMid hsh mp c2 cMid opsUsed, hmem1]
  have hs1tip : s1.tip = ix.chain.tip := by
    rw [hs1]
    exact htipMid
  have hskip2 := sync_skip s1 ix mp d c2 hs1tip
  refine ⟨by rw [hskip2]; rfl, ?_, by rw [hskip2, hconf1]; rw [show (Status.sync_finish
      s1 ix mp c2 (s1.funding_confirmed ix.chain)).status.confirmed =
      s1.confirmed from rfl, hconf1], by rw [hskip2]; exact hmemEq,
    fun h => sync_skip s ix mp d c h⟩
  rw [hskip2]
  have h1 : (Status.sync_finish s1 ix mp c2
      (s1.funding_confirmed ix.chain)).status.statushash =
      ({ s1 with mempool := (s1.sync_mempool mp c2
        (s1.funding_confirmed ix.chain)).1 }).compute_status_hash ix.chain mp := rfl
  rw [h1, hstat1]
  apply compute_status_hash_congr
  · exact hconf1
  · rw [show ({ s1 with mempool := (s1.sync_mempool mp c2
      (s1.funding_confirmed ix.chain)).1 } : Status).mempool =
      (s1.sync_mempool mp c2 (s1.funding_confirmed ix.chain)).1 from rfl]
    rw [hmemEq, hmem1]

/-- Empty chain at tip 0 for the idempotence witness. -/
def chainE : Chain := ⟨0, fun _ => none⟩

def ixE : Index := ⟨chainE, fun _ => [], fun _ => []⟩

def mpE : Mempool := ⟨[]⟩

def dE : Daemon := ⟨fun _ => .error 0⟩

def cE : Cache := ⟨[], []⟩

def sE : Status := Status.new (ScriptHash.new [7])

/-- C6 witness: a fresh tracker at the chain tip syncs to itself with no
error, and the second sync changes nothing. -/
theorem c6_sync_idempotent_witness :
    sE.sync ixE mpE dE cE = ⟨sE, cE, none⟩ ∧
    ((sE.sync ixE mpE dE cE).err = none ∧
     (sE.sync ixE mpE dE cE).status.statushash = sE.statushash ∧
     (sE.sync ixE mpE dE cE).status.confirmed = sE.confirmed ∧
     (sE.sync ixE mpE dE cE).status.mempool = sE.mempool ∧
     (sE.tip = ixE.chain.tip →
       sE.sync ixE mpE dE cE =
         Status.sync_finish sE ixE mpE cE (sE.funding_confirmed ixE.chain))) :=
  ⟨rfl, c6_sync_idempotent sE ixE mpE dE cE sE cE cE rfl⟩
